import Mathlib

set_option maxHeartbeats 1600000

/-!
Verification development for the Starknet streaming app.

The repository has two halves:

* an ingestion pipeline (`src/backend/pendingBatchIngestion.js` with the
  batched mutator `processEventsBatch`, and `src/backend/pendingIngestion.js`
  with the per-event mutator `processEvent`) that scans ledger blocks,
  applies mutations to the `Bot` (Agent), `Mine` (LocationClaim) and
  `Transaction` (AuditRecord) collections, and advances a checkpoint; and
* a WebSocket fan-out server (`src/unnamed/part_001`, with an older variant
  in `src/unnamed/part_000` and a legacy manager embedded in `part_001`)
  whose `TransactionManager` polls the pending window, keeps a capped shared
  queue, and streams batches to subscribers with per-subscriber backlogs.

MongoDB collections are embedded as lists of rows.  `updateOne` updates the
first matching row (`updateFirst`); `upsert : true` appends a fresh row when
no row matches; `$setOnInsert` leaves a matching row unchanged; `$set`
replaces the matched row's fields; `create` appends unconditionally;
`bulkWrite` is modelled as left-to-right application of the collected
operation list (the `ordered:false` option only governs error handling,
which is out of scope of the embedded success path).
-/

namespace StarknetStream

/-- Raw ledger event exactly as built in `fetchAndStoreEvents`:
`{ block: blockNumber, key: event.keys[0], data: event.data, timestamp: ... }`. -/
structure RawEvent where
  block : Nat
  key : String
  data : List String
  timestamp : String
deriving DecidableEq

/-- A document of the `Bot` collection (the spec's Agent). -/
structure BotRow where
  bot_address : String
  player : String
  status : String
  score : Int
  starting_tile : String
deriving DecidableEq

/-- A document of the `Mine` collection (the spec's LocationClaim). -/
structure MineRow where
  bot_address : String
  location : String
  mine_type : String
  timestamp : String
deriving DecidableEq

/-- A document of the `Transaction` collection (the spec's AuditRecord). -/
structure TxRow where
  block : Nat
  event_name : String
  event_hash : String
  data : List String
  timestamp : String
deriving DecidableEq

/-- The persistent-store state touched by the mutators. -/
structure DB where
  bots : List BotRow
  mines : List MineRow
  txs : List TxRow
deriving DecidableEq

def SPAWNED_BOT : String := "0x2cd0383e81a65036ae8acc94ac89e891d1385ce01ae6cc127c27615f5420fa3"

def TILE_MINED : String := "0xd5efc9cfb6a4f6bb9eae0ce39d32480473877bb3f7a4eaa3944c881a2c8d25"

def BOMB_FOUND : String := "0x111861367b42e77c11a98efb6d09a14c2dc470eee1a4d2c3c1e8c54015da2e5"

def DIAMOND_FOUND : String := "0x14528085c8fd64b9210572c5b6015468f8352c17c9c22f5b7aa62a55a56d8d7"

def TILE_ALREADY_MINED : String := "0x1b74d97806c93468070e49a1626aba00f8e89dfb07246492af4566f898de982"

def SUSPEND_BOT : String := "0x1dcca826eea45d96bfbf26e9aabf510e94c6de62d0ce5e5b6e60c51c7640af8"

def REVIVE_BOT : String := "0x1d6a6a42fd13b206a721dbca3ae720621707ef3016850e2c5536244e5a7858a"

/-- The fixed `EVENT_MAP` hash-to-name table (identical in all source variants). -/
def EVENT_MAP (k : String) : Option String :=
  if k = SPAWNED_BOT then some ("SpawnedBot")
  else if k = TILE_MINED then some ("TileMined")
  else if k = BOMB_FOUND then some ("BombFound")
  else if k = DIAMOND_FOUND then some ("DiamondFound")
  else if k = TILE_ALREADY_MINED then some ("TileAlreadyMined")
  else if k = SUSPEND_BOT then some ("SuspendBot")
  else if k = REVIVE_BOT then some ("ReviveBot")
  else none

/-- `data[i]` access; absent indices read as the empty string. -/
def RawEvent.dataAt (e : RawEvent) (i : Nat) : String := e.data.getD i ""

/-- Mongo `updateOne`: rewrite the first row satisfying the filter. -/
def updateFirst (p : α → Bool) (f : α → α) : List α → List α
  | [] => []
  | x :: xs => if p x then f x :: xs else x :: updateFirst p f xs

/-- The uniqueness key of a `Mine` row: `(bot_address, location)`. -/
def mineKey (r : MineRow) : String × String := (r.bot_address, r.location)

/-- The Mongo filter `{ bot_address, location }` on the `Mine` collection. -/
def mineKeyMatch (k : String × String) (r : MineRow) : Bool := decide (mineKey r = k)

/-- The Mongo filter `{ bot_address }` on the `Bot` collection. -/
def botAddrMatch (a : String) (b : BotRow) : Bool := decide (b.bot_address = a)

/-- The two kinds of `Mine` write collected by `processEventsBatch`:
`TileMined` pushes an `upsert` with `$setOnInsert` (insert-if-absent), while
`DiamondFound`/`BombFound` push an `upsert` with `$set` (force-overwrite). -/
inductive MineOp where
  | insertEmptyIfAbsent (addr loc ts : String)
  | forceSet (addr loc mtype ts : String)
deriving DecidableEq

def MineOp.key : MineOp → String × String
  | .insertEmptyIfAbsent a l _ => (a, l)
  | .forceSet a l _ _ => (a, l)

def MineOp.row : MineOp → MineRow
  | .insertEmptyIfAbsent a l ts => ⟨a, l, ("Empty"), ts⟩
  | .forceSet a l mt ts => ⟨a, l, mt, ts⟩

/-- Apply one collected `Mine` bulk operation to the collection. -/
def applyMineOp (m : List MineRow) (op : MineOp) : List MineRow :=
  match op with
  | .insertEmptyIfAbsent _ _ _ =>
      if m.any (mineKeyMatch op.key) then m else m ++ [op.row]
  | .forceSet _ _ _ _ =>
      if m.any (mineKeyMatch op.key) then updateFirst (mineKeyMatch op.key) (fun _ => op.row) m
      else m ++ [op.row]

def applyMineOps (m : List MineRow) (ops : List MineOp) : List MineRow :=
  ops.foldl applyMineOp m

/-- The `Bot` writes collected by `processEventsBatch`: a plain `$inc` on the
score, a plain `$set` of the status, or the `SpawnedBot` full `$set` upsert. -/
inductive BotOp where
  | incScore (addr : String) (delta : Int)
  | setStatusDead (addr : String)
  | upsertSpawn (addr player tile : String)
deriving DecidableEq

/-- Apply one collected `Bot` bulk operation.  `$inc`/`$set` without `upsert`
are no-ops when no document matches the filter. -/
def applyBotOp (bs : List BotRow) (op : BotOp) : List BotRow :=
  match op with
  | .incScore a d => updateFirst (botAddrMatch a) (fun b => { b with score := b.score + d }) bs
  | .setStatusDead a => updateFirst (botAddrMatch a) (fun b => { b with status := ("dead") }) bs
  | .upsertSpawn a p t =>
      if bs.any (botAddrMatch a) then
        updateFirst (botAddrMatch a) (fun _ => ⟨a, p, ("alive"), 0, t⟩) bs
      else bs ++ [⟨a, p, ("alive"), 0, t⟩]

def applyBotOps (bs : List BotRow) (ops : List BotOp) : List BotRow :=
  ops.foldl applyBotOp bs

/-- The `bulkBots` entries pushed for one event by `processEventsBatch`'s switch. -/
def batchBotOps (e : RawEvent) : List BotOp :=
  if e.key = TILE_MINED then [.incScore (e.dataAt 0) 10]
  else if e.key = DIAMOND_FOUND then [.incScore (e.dataAt 0) 5000]
  else if e.key = BOMB_FOUND then [.setStatusDead (e.dataAt 0)]
  else if e.key = SPAWNED_BOT then [.upsertSpawn (e.dataAt 0) (e.dataAt 1) (e.dataAt 2)]
  else []

/-- The `bulkMines` entries pushed for one event by `processEventsBatch`'s
switch.  Note `BombFound` reads the location from `data[1]`, the others from
`data[2]`, exactly as in the source. -/
def batchMineOps (e : RawEvent) : List MineOp :=
  if e.key = TILE_MINED then [.insertEmptyIfAbsent (e.dataAt 0) (e.dataAt 2) e.timestamp]
  else if e.key = DIAMOND_FOUND then [.forceSet (e.dataAt 0) (e.dataAt 2) ("Diamond") e.timestamp]
  else if e.key = BOMB_FOUND then [.forceSet (e.dataAt 0) (e.dataAt 1) ("Bomb") e.timestamp]
  else []

/-- The audit document pushed to `bulkTransactions` for every event,
mapped or not (`EVENT_MAP[key] || "TransferEvent"`). -/
def txRowOf (blockNumber : Nat) (e : RawEvent) : TxRow :=
  ⟨blockNumber, (EVENT_MAP e.key).getD ("TransferEvent"), e.key, e.data, e.timestamp⟩

/-- `processEventsBatch(events, blockNumber)` of `pendingBatchIngestion.js`:
collect the three bulk-op lists in event order, then apply each list to its
collection. -/
def processEventsBatch (evs : List RawEvent) (blockNumber : Nat) (db : DB) : DB :=
  { bots := applyBotOps db.bots ((evs.map batchBotOps).flatten)
    mines := applyMineOps db.mines ((evs.map batchMineOps).flatten)
    txs := db.txs ++ evs.map (txRowOf blockNumber) }

/-- `processEvent(event)` of `pendingIngestion.js`.  Unmapped events return
before any write (no audit record!).  `TileMined` inserts the claim and adds
the 10 points only when the claim was absent; `DiamondFound` and `BombFound`
use `Mine.create`, i.e. an unconditional append; `SpawnedBot` uses
`Bot.create`, an unconditional append. -/
def processEvent (db : DB) (e : RawEvent) : DB :=
  if (EVENT_MAP e.key).isNone then db
  else
    let db1 :=
      if e.key = TILE_MINED then
        if db.mines.any (mineKeyMatch (e.dataAt 0, e.dataAt 2)) then db
        else
          { db with
            mines := db.mines ++ [⟨e.dataAt 0, e.dataAt 2, ("Empty"), e.timestamp⟩]
            bots := updateFirst (botAddrMatch (e.dataAt 0))
              (fun b => { b with score := b.score + 10 }) db.bots }
      else if e.key = DIAMOND_FOUND then
        { db with
          mines := db.mines ++ [⟨e.dataAt 0, e.dataAt 2, ("Diamond"), e.timestamp⟩]
          bots := updateFirst (botAddrMatch (e.dataAt 0))
            (fun b => { b with score := b.score + 5000 }) db.bots }
      else if e.key = BOMB_FOUND then
        { db with
          mines := db.mines ++ [⟨e.dataAt 0, e.dataAt 1, ("Bomb"), e.timestamp⟩]
          bots := updateFirst (botAddrMatch (e.dataAt 0))
            (fun b => { b with status := ("dead") }) db.bots }
      else if e.key = SPAWNED_BOT then
        { db with bots := db.bots ++ [⟨e.dataAt 0, e.dataAt 1, ("alive"), 0, e.dataAt 2⟩] }
      else db
    { db1 with txs := db1.txs ++ [txRowOf e.block e] }

/-- One `fetchAndStoreEvents` apply step of `pendingBatchIngestion.js`:
the batch mutator runs only when the block scan produced events
(`if (events.length) await processEventsBatch(...)`). -/
def fetchAndStoreEventsApply (db : DB) (p : Nat × List RawEvent) : DB :=
  if p.2.isEmpty then db else processEventsBatch p.2 p.1 db

/-- Repeated `fetchAndStoreEvents` apply steps over a sequence of scanned blocks. -/
def processBlocks (db : DB) (blocks : List (Nat × List RawEvent)) : DB :=
  blocks.foldl fetchAndStoreEventsApply db

-- Concrete states for the scenario claims.

/-- Agent `agentB`, already spawned, with score 0. -/
def exBotB : BotRow := ⟨("0xb"), ("pl"), ("alive"), 0, ("0x1")⟩

def exDB : DB := ⟨[exBotB], [], []⟩

/-- A `TileMined` (TileClaimedEmpty) raw event for `(agentB, "0x3")`. -/
def tileEvB : RawEvent := ⟨6, TILE_MINED, [("0xb"), ("xx"), ("0x3")], ("t0")⟩

example : (processEventsBatch [tileEvB] 6 exDB).mines.length = 1 := by decide

example : (processEventsBatch [tileEvB, tileEvB] 6 exDB).bots = [{ exBotB with score := 20 }] := by
  decide

example : (processEvent (processEvent exDB tileEvB) tileEvB).bots
    = [{ exBotB with score := 10 }] := by decide

/-! ### Replay idempotence of the `Mine` collection under the batch mutator

All `Mine` writes collected by `processEventsBatch` are upserts keyed by
`(bot_address, location)`: rows are never removed, an absent key is appended,
and a present key is either left alone (`$setOnInsert`) or has its first
matching row overwritten in place (`$set`).  We show that running the same
collected operation list twice reaches the same `Mine` state as running it
once. -/

def hasKey (m : List MineRow) (k : String × String) : Bool := m.any (mineKeyMatch k)

theorem mineKey_row_key (op : MineOp) : mineKey op.row = op.key := by
  cases op <;> rfl

theorem updateFirst_of_any_eq_false (p : α → Bool) (f : α → α) (l : List α)
    (h : l.any p = false) : updateFirst p f l = l := by
  induction l with
  | nil => rfl
  | cons x xs ih =>
    simp only [List.any_cons, Bool.or_eq_false_iff] at h
    simp [updateFirst, h.1, ih h.2]

theorem updateFirst_append_of_any (p : α → Bool) (f : α → α) (l₁ l₂ : List α)
    (h : l₁.any p = true) : updateFirst p f (l₁ ++ l₂) = updateFirst p f l₁ ++ l₂ := by
  induction l₁ with
  | nil => simp at h
  | cons x xs ih =>
    by_cases hx : p x = true
    · simp [updateFirst, hx]
    · have hx2 : p x = false := by simpa using hx
      have hxs : xs.any p = true := by
        simp only [List.any_cons, hx2, Bool.false_or] at h
        exact h
      simp [updateFirst, hx2, ih hxs]

theorem updateFirst_append_of_any_eq_false (p : α → Bool) (f : α → α) (l₁ l₂ : List α)
    (h : l₁.any p = false) : updateFirst p f (l₁ ++ l₂) = l₁ ++ updateFirst p f l₂ := by
  induction l₁ with
  | nil => rfl
  | cons x xs ih =>
    simp only [List.any_cons, Bool.or_eq_false_iff] at h
    simp [updateFirst, h.1, ih h.2]

theorem map_mineKey_updateFirst (k : String × String) (row : MineRow) (m : List MineRow)
    (hrow : mineKey row = k) :
    (updateFirst (mineKeyMatch k) (fun _ => row) m).map mineKey = m.map mineKey := by
  induction m with
  | nil => rfl
  | cons x xs ih =>
    by_cases hx : mineKeyMatch k x = true
    · have hkx : mineKey x = k := by simpa [mineKeyMatch] using hx
      simp [updateFirst, hx, hrow, hkx]
    · have hx2 : mineKeyMatch k x = false := by simpa using hx
      simp [updateFirst, hx2, ih]

theorem hasKey_iff_mem_map (m : List MineRow) (k : String × String) :
    hasKey m k = true ↔ k ∈ m.map mineKey := by
  simp [hasKey, mineKeyMatch, List.any_eq_true, List.mem_map]

theorem hasKey_eq_of_map_mineKey_eq {m₁ m₂ : List MineRow}
    (h : m₁.map mineKey = m₂.map mineKey) (k : String × String) :
    hasKey m₁ k = hasKey m₂ k := by
  by_cases h₁ : hasKey m₁ k = true
  · have hm := (hasKey_iff_mem_map m₁ k).1 h₁
    rw [h] at hm
    rw [h₁, (hasKey_iff_mem_map m₂ k).2 hm]
  · by_cases h₂ : hasKey m₂ k = true
    · exfalso
      have hm := (hasKey_iff_mem_map m₂ k).1 h₂
      rw [← h] at hm
      exact h₁ ((hasKey_iff_mem_map m₁ k).2 hm)
    · have h₁f : hasKey m₁ k = false := by simpa using h₁
      have h₂f : hasKey m₂ k = false := by simpa using h₂
      rw [h₁f, h₂f]

/-- Unfolding: `$setOnInsert` upsert with the key present is a no-op. -/
theorem applyMineOp_insert_of_hasKey {m : List MineRow} {a l ts : String}
    (h : hasKey m (a, l) = true) :
    applyMineOp m (MineOp.insertEmptyIfAbsent a l ts) = m := by
  unfold hasKey at h
  simp [applyMineOp, MineOp.key, h]

/-- Unfolding: `$setOnInsert` upsert with the key absent appends the row. -/
theorem applyMineOp_insert_of_not {m : List MineRow} {a l ts : String}
    (h : hasKey m (a, l) = false) :
    applyMineOp m (MineOp.insertEmptyIfAbsent a l ts)
      = m ++ [⟨a, l, ("Empty"), ts⟩] := by
  unfold hasKey at h
  simp [applyMineOp, MineOp.key, MineOp.row, h]

/-- Unfolding: `$set` upsert with the key present overwrites the first match. -/
theorem applyMineOp_force_of_hasKey {m : List MineRow} {a l mt ts : String}
    (h : hasKey m (a, l) = true) :
    applyMineOp m (MineOp.forceSet a l mt ts)
      = updateFirst (mineKeyMatch (a, l)) (fun _ => ⟨a, l, mt, ts⟩) m := by
  unfold hasKey at h
  simp [applyMineOp, MineOp.key, MineOp.row, h]

/-- Unfolding: `$set` upsert with the key absent appends the row. -/
theorem applyMineOp_force_of_not {m : List MineRow} {a l mt ts : String}
    (h : hasKey m (a, l) = false) :
    applyMineOp m (MineOp.forceSet a l mt ts) = m ++ [⟨a, l, mt, ts⟩] := by
  unfold hasKey at h
  simp [applyMineOp, MineOp.key, MineOp.row, h]

/-- Upserts never delete: the key skeleton only grows, by the op's own key
when it was absent. -/
theorem map_mineKey_applyMineOp (m : List MineRow) (op : MineOp) :
    (applyMineOp m op).map mineKey
      = m.map mineKey ++ (if hasKey m op.key then [] else [op.key]) := by
  cases op with
  | insertEmptyIfAbsent a l ts =>
    by_cases h : hasKey m (a, l) = true
    · rw [applyMineOp_insert_of_hasKey h]
      simp [MineOp.key, h]
    · have h2 : hasKey m (a, l) = false := by simpa using h
      rw [applyMineOp_insert_of_not h2]
      simp [MineOp.key, h2, mineKey]
  | forceSet a l mt ts =>
    by_cases h : hasKey m (a, l) = true
    · rw [applyMineOp_force_of_hasKey h]
      rw [map_mineKey_updateFirst (a, l) (⟨a, l, mt, ts⟩ : MineRow) m rfl]
      simp [MineOp.key, h]
    · have h2 : hasKey m (a, l) = false := by simpa using h
      rw [applyMineOp_force_of_not h2]
      simp [MineOp.key, h2, mineKey]

theorem hasKey_applyMineOp_of_hasKey {m : List MineRow} {k : String × String}
    (h : hasKey m k = true) (op : MineOp) : hasKey (applyMineOp m op) k = true := by
  rw [hasKey_iff_mem_map] at h ⊢
  rw [map_mineKey_applyMineOp]
  exact List.mem_append_left _ h

theorem applyMineOps_cons (m : List MineRow) (op : MineOp) (ops : List MineOp) :
    applyMineOps m (op :: ops) = applyMineOps (applyMineOp m op) ops := rfl

theorem applyMineOps_concat (m : List MineRow) (ops : List MineOp) (op : MineOp) :
    applyMineOps m (ops ++ [op]) = applyMineOp (applyMineOps m ops) op := by
  simp [applyMineOps, List.foldl_append]

theorem hasKey_applyMineOps_of_hasKey {m : List MineRow} {k : String × String}
    (h : hasKey m k = true) (ops : List MineOp) :
    hasKey (applyMineOps m ops) k = true := by
  induction ops generalizing m with
  | nil => exact h
  | cons op ops ih => exact ih (hasKey_applyMineOp_of_hasKey h op)

theorem map_mineKey_applyMineOps_extend (ops : List MineOp) :
    ∀ m : List MineRow, ∃ ext, (applyMineOps m ops).map mineKey = m.map mineKey ++ ext := by
  induction ops with
  | nil => intro m; exact ⟨[], by simp [applyMineOps]⟩
  | cons op ops ih =>
    intro m
    obtain ⟨ext, hext⟩ := ih (applyMineOp m op)
    refine ⟨(if hasKey m op.key then [] else [op.key]) ++ ext, ?_⟩
    rw [applyMineOps_cons, hext, map_mineKey_applyMineOp, List.append_assoc]

/-- If running the collected operations leaves the key skeleton unchanged,
then every operation's key was already present at the start. -/
theorem hasKey_of_skeleton_fixed (ops : List MineOp) :
    ∀ m : List MineRow,
      (applyMineOps m ops).map mineKey = m.map mineKey →
      ∀ op ∈ ops, hasKey m op.key = true := by
  induction ops with
  | nil =>
    intro m _ op hop
    simp at hop
  | cons op ops ih =>
    intro m h op' hop'
    obtain ⟨ext, hext⟩ := map_mineKey_applyMineOps_extend ops (applyMineOp m op)
    rw [applyMineOps_cons, hext, map_mineKey_applyMineOp, List.append_assoc] at h
    have hnil : (if hasKey m op.key then [] else [op.key]) ++ ext = ([] : List (String × String)) := by
      have hlen := congrArg List.length h
      rw [List.length_append] at hlen
      have hz : ((if hasKey m op.key then [] else [op.key]) ++ ext).length = 0 := by omega
      exact List.eq_nil_of_length_eq_zero hz
    obtain ⟨hif, hext0⟩ := List.append_eq_nil.mp hnil
    have hk : hasKey m op.key = true := by
      by_contra hc
      have hc2 : hasKey m op.key = false := by simpa using hc
      simp [hc2] at hif
    have hskel : (applyMineOp m op).map mineKey = m.map mineKey := by
      rw [map_mineKey_applyMineOp, hk]
      simp
    rcases List.mem_cons.mp hop' with rfl | hmem
    · exact hk
    · have hfix : (applyMineOps (applyMineOp m op) ops).map mineKey
          = (applyMineOp m op).map mineKey := by
        rw [hext, hext0, List.append_nil, hskel]
      have := ih (applyMineOp m op) hfix op' hmem
      rw [hasKey_eq_of_map_mineKey_eq hskel op'.key] at this
      exact this

/-- If every operation's key is present, the whole run happens in place and a
row appended at the end just rides along. -/
theorem applyMineOps_append_one (ops : List MineOp) :
    ∀ (m : List MineRow) (r : MineRow),
      (∀ op ∈ ops, hasKey m op.key = true) →
      applyMineOps (m ++ [r]) ops = applyMineOps m ops ++ [r] := by
  induction ops with
  | nil => intro m r _; rfl
  | cons op ops ih =>
    intro m r hpres
    have hk : hasKey m op.key = true := hpres op (List.mem_cons_self op ops)
    have hk2 : hasKey (m ++ [r]) op.key = true := by
      rw [hasKey_iff_mem_map] at hk ⊢
      rw [List.map_append]
      exact List.mem_append_left _ hk
    rw [applyMineOps_cons, applyMineOps_cons]
    cases op with
    | insertEmptyIfAbsent a l ts =>
      simp only [MineOp.key] at hk hk2
      rw [applyMineOp_insert_of_hasKey hk2, applyMineOp_insert_of_hasKey hk]
      exact ih m r (fun op' h' => hpres op' (List.mem_cons_of_mem _ h'))
    | forceSet a l mt ts =>
      simp only [MineOp.key] at hk hk2
      rw [applyMineOp_force_of_hasKey hk2, applyMineOp_force_of_hasKey hk]
      have hany : m.any (mineKeyMatch (a, l)) = true := hk
      rw [updateFirst_append_of_any _ _ _ _ hany]
      have hskel : (updateFirst (mineKeyMatch (a, l))
          (fun _ => (⟨a, l, mt, ts⟩ : MineRow)) m).map mineKey = m.map mineKey :=
        map_mineKey_updateFirst (a, l) _ m rfl
      refine ih _ r ?_
      intro op' h'
      rw [hasKey_eq_of_map_mineKey_eq hskel op'.key]
      exact hpres op' (List.mem_cons_of_mem _ h')

/-- Overwriting the first match twice with the same key collapses. -/
theorem updateFirst_updateFirst_same (k : String × String) (row₁ row₂ : MineRow)
    (hrow : mineKey row₂ = k) (m : List MineRow) :
    updateFirst (mineKeyMatch k) (fun _ => row₁)
        (updateFirst (mineKeyMatch k) (fun _ => row₂) m)
      = updateFirst (mineKeyMatch k) (fun _ => row₁) m := by
  induction m with
  | nil => rfl
  | cons x xs ih =>
    by_cases hx : mineKeyMatch k x = true
    · have h₂ : mineKeyMatch k row₂ = true := by simp [mineKeyMatch, hrow]
      simp [updateFirst, hx, h₂]
    · have hx2 : mineKeyMatch k x = false := by simpa using hx
      simp [updateFirst, hx2, ih]

/-- First-match overwrites at distinct keys commute. -/
theorem updateFirst_updateFirst_comm (k₁ k₂ : String × String) (row₁ row₂ : MineRow)
    (hne : k₁ ≠ k₂) (h₁ : mineKey row₁ = k₁) (h₂ : mineKey row₂ = k₂) (m : List MineRow) :
    updateFirst (mineKeyMatch k₁) (fun _ => row₁)
        (updateFirst (mineKeyMatch k₂) (fun _ => row₂) m)
      = updateFirst (mineKeyMatch k₂) (fun _ => row₂)
        (updateFirst (mineKeyMatch k₁) (fun _ => row₁) m) := by
  induction m with
  | nil => rfl
  | cons x xs ih =>
    by_cases hx₂ : mineKeyMatch k₂ x = true
    · have hkx : mineKey x = k₂ := by simpa [mineKeyMatch] using hx₂
      have hx₁ : mineKeyMatch k₁ x = false := by
        simp [mineKeyMatch, hkx]
        exact fun hc => hne hc.symm
      have hr₂ : mineKeyMatch k₁ row₂ = false := by
        simp [mineKeyMatch, h₂]
        exact fun hc => hne hc.symm
      simp [updateFirst, hx₂, hx₁, hr₂]
    · have hx₂f : mineKeyMatch k₂ x = false := by simpa using hx₂
      by_cases hx₁ : mineKeyMatch k₁ x = true
      · have hr₁ : mineKeyMatch k₂ row₁ = false := by
          simp [mineKeyMatch, h₁]
          exact fun hc => hne hc
        simp [updateFirst, hx₂f, hx₁, hr₁]
      · have hx₁f : mineKeyMatch k₁ x = false := by simpa using hx₁
        simp [updateFirst, hx₂f, hx₁f, ih]

/-- A first-match overwrite before a run whose keys are all present is
absorbed by repeating the overwrite after the run. -/
theorem applyMineOps_updateFirst_absorb (ops : List MineOp) :
    ∀ (m : List MineRow) (k : String × String) (row : MineRow),
      mineKey row = k →
      (∀ op ∈ ops, hasKey m op.key = true) →
      updateFirst (mineKeyMatch k) (fun _ => row)
          (applyMineOps (updateFirst (mineKeyMatch k) (fun _ => row) m) ops)
        = updateFirst (mineKeyMatch k) (fun _ => row) (applyMineOps m ops) := by
  induction ops with
  | nil =>
    intro m k row hrow _
    exact updateFirst_updateFirst_same k row row hrow m
  | cons op ops ih =>
    intro m k row hrow hpres
    have hk : hasKey m op.key = true := hpres op (List.mem_cons_self op ops)
    have hskelW : (updateFirst (mineKeyMatch k) (fun _ => row) m).map mineKey
        = m.map mineKey := map_mineKey_updateFirst k row m hrow
    have hkW : hasKey (updateFirst (mineKeyMatch k) (fun _ => row) m) op.key = true := by
      rw [hasKey_eq_of_map_mineKey_eq hskelW op.key]
      exact hk
    rw [applyMineOps_cons, applyMineOps_cons]
    cases op with
    | insertEmptyIfAbsent a l ts =>
      simp only [MineOp.key] at hk hkW
      rw [applyMineOp_insert_of_hasKey hkW, applyMineOp_insert_of_hasKey hk]
      exact ih m k row hrow (fun op' h' => hpres op' (List.mem_cons_of_mem _ h'))
    | forceSet a l mt ts =>
      simp only [MineOp.key] at hk hkW
      rw [applyMineOp_force_of_hasKey hkW, applyMineOp_force_of_hasKey hk]
      by_cases hkk : (a, l) = k
      · subst hkk
        rw [updateFirst_updateFirst_same (a, l) (⟨a, l, mt, ts⟩) row hrow m]
      · rw [updateFirst_updateFirst_comm (a, l) k (⟨a, l, mt, ts⟩) row hkk rfl hrow m]
        have hskel2 : (updateFirst (mineKeyMatch (a, l))
            (fun _ => (⟨a, l, mt, ts⟩ : MineRow)) m).map mineKey = m.map mineKey :=
          map_mineKey_updateFirst (a, l) (⟨a, l, mt, ts⟩ : MineRow) m rfl
        refine ih _ k row hrow ?_
        intro op' h'
        rw [hasKey_eq_of_map_mineKey_eq hskel2 op'.key]
        exact hpres op' (List.mem_cons_of_mem _ h')

/-- Replay idempotence of the collected `Mine` operation list: running the
same list twice from any collection equals running it once. -/
theorem applyMineOps_idem (ops : List MineOp) :
    ∀ m : List MineRow, applyMineOps (applyMineOps m ops) ops = applyMineOps m ops := by
  induction ops using List.reverseRecOn with
  | nil => intro m; rfl
  | append_singleton ops₀ op ih =>
    intro m
    have hu : applyMineOps (applyMineOps m ops₀) ops₀ = applyMineOps m ops₀ := ih m
    set u := applyMineOps m ops₀ with hu_def
    have hpres : ∀ op' ∈ ops₀, hasKey u op'.key = true :=
      hasKey_of_skeleton_fixed ops₀ u (by rw [hu])
    rw [applyMineOps_concat, applyMineOps_concat, ← hu_def]
    by_cases hk : hasKey u op.key = true
    · cases op with
      | insertEmptyIfAbsent a l ts =>
        simp only [MineOp.key] at hk
        rw [applyMineOp_insert_of_hasKey hk, hu]
        rw [applyMineOp_insert_of_hasKey hk]
      | forceSet a l mt ts =>
        simp only [MineOp.key] at hk
        rw [applyMineOp_force_of_hasKey hk]
        have hskel : (updateFirst (mineKeyMatch (a, l))
            (fun _ => (⟨a, l, mt, ts⟩ : MineRow)) u).map mineKey = u.map mineKey :=
          map_mineKey_updateFirst (a, l) _ u rfl
        have hk₁ : hasKey (applyMineOps (updateFirst (mineKeyMatch (a, l))
            (fun _ => (⟨a, l, mt, ts⟩ : MineRow)) u) ops₀) (a, l) = true := by
          refine hasKey_applyMineOps_of_hasKey ?_ ops₀
          rw [hasKey_eq_of_map_mineKey_eq hskel (a, l)]
          exact hk
        rw [applyMineOp_force_of_hasKey hk₁]
        rw [applyMineOps_updateFirst_absorb ops₀ u (a, l) (⟨a, l, mt, ts⟩) rfl hpres]
        rw [hu]
    · have hk2 : hasKey u op.key = false := by simpa using hk
      cases op with
      | insertEmptyIfAbsent a l ts =>
        simp only [MineOp.key] at hk2
        rw [applyMineOp_insert_of_not hk2]
        rw [applyMineOps_append_one ops₀ u _ hpres, hu]
        have hk3 : hasKey (u ++ [(⟨a, l, ("Empty"), ts⟩ : MineRow)]) (a, l) = true := by
          rw [hasKey_iff_mem_map, List.map_append]
          refine List.mem_append_right _ ?_
          simp [mineKey]
        rw [applyMineOp_insert_of_hasKey hk3]
      | forceSet a l mt ts =>
        simp only [MineOp.key] at hk2
        rw [applyMineOp_force_of_not hk2]
        rw [applyMineOps_append_one ops₀ u _ hpres, hu]
        have hk3 : hasKey (u ++ [(⟨a, l, mt, ts⟩ : MineRow)]) (a, l) = true := by
          rw [hasKey_iff_mem_map, List.map_append]
          refine List.mem_append_right _ ?_
          simp [mineKey]
        rw [applyMineOp_force_of_hasKey hk3]
        rw [updateFirst_append_of_any_eq_false _ _ _ _ hk2]
        simp [updateFirst, mineKeyMatch, mineKey]

/-! ### Helpers for first-match updates in a decomposed collection -/

theorem updateFirst_middle (p : α → Bool) (f : α → α) (l₁ l₂ : List α) (r : α)
    (h₁ : l₁.any p = false) (hr : p r = true) :
    updateFirst p f (l₁ ++ r :: l₂) = l₁ ++ f r :: l₂ := by
  rw [updateFirst_append_of_any_eq_false p f l₁ (r :: l₂) h₁]
  simp [updateFirst, hr]

theorem filter_eq_nil_of_any_eq_false (p : α → Bool) (l : List α) (h : l.any p = false) :
    l.filter p = [] := by
  induction l with
  | nil => rfl
  | cons x xs ih =>
    simp only [List.any_cons, Bool.or_eq_false_iff] at h
    simp [List.filter_cons, h.1, ih h.2]

theorem filter_middle_single (p : α → Bool) (l₁ l₂ : List α) (r : α)
    (h₁ : l₁.any p = false) (h₂ : l₂.any p = false) (hr : p r = true) :
    (l₁ ++ r :: l₂).filter p = [r] := by
  rw [List.filter_append, filter_eq_nil_of_any_eq_false p l₁ h₁]
  simp [List.filter_cons, hr, filter_eq_nil_of_any_eq_false p l₂ h₂]

theorem batchMineOps_diamond (e : RawEvent) (he : e.key = DIAMOND_FOUND) :
    batchMineOps e
      = [MineOp.forceSet (e.dataAt 0) (e.dataAt 2) ("Diamond") e.timestamp] := by
  rw [batchMineOps, he]
  rw [if_neg (show ¬(DIAMOND_FOUND = TILE_MINED) by decide), if_pos rfl]

theorem batchBotOps_diamond (e : RawEvent) (he : e.key = DIAMOND_FOUND) :
    batchBotOps e = [BotOp.incScore (e.dataAt 0) 5000] := by
  rw [batchBotOps, he]
  rw [if_neg (show ¬(DIAMOND_FOUND = TILE_MINED) by decide), if_pos rfl]

/-! ### Claim C1 -/

/-- C1 counterexample.  The claim states that replaying the same block's raw
events a second time leaves Agent and LocationClaim state unchanged, and that
two consecutive identical `TileClaimedEmpty` (`TileMined`) events increase the
agent's score by exactly 10 in total.  In `processEventsBatch` the score
`$inc` of 10 is pushed unconditionally for every `TileMined` event, not only
on claim insertion, so the concrete replay changes the Agent state and the
two consecutive identical events add 20, not 10. -/
theorem C1_batch_replay_counterexample :
    processEventsBatch [tileEvB] 6 (processEventsBatch [tileEvB] 6 exDB)
        ≠ processEventsBatch [tileEvB] 6 exDB
    ∧ (processEventsBatch [tileEvB, tileEvB] 6 exDB).mines.length = 1
    ∧ (processEventsBatch [tileEvB, tileEvB] 6 exDB).bots = [{ exBotB with score := 20 }]
    ∧ (processEventsBatch [tileEvB, tileEvB] 6 exDB).bots ≠ [{ exBotB with score := 10 }] := by
  refine ⟨by decide, by decide, by decide, by decide⟩

/-- C1 (amended): replaying a block's raw-event sequence through the batch
mutator `processEventsBatch` yields the identical LocationClaim (`Mine`)
state as a single application, for every event sequence and every database
state, and two consecutive identical `TileClaimedEmpty` events leave exactly
one LocationClaim row; but Agent state is not idempotent there: the +10 score
increment is applied per occurrence, so the pair of identical events adds 20
via the batch path.  The per-event mutator `processEvent` increments only on
claim insertion, so there the pair adds exactly 10 with one claim row, as the
original claim states. -/
theorem C1_batch_replay_amended :
    (∀ (evs : List RawEvent) (b : Nat) (db : DB),
        (processEventsBatch evs b (processEventsBatch evs b db)).mines
          = (processEventsBatch evs b db).mines)
    ∧ (processEventsBatch [tileEvB, tileEvB] 6 exDB).mines.length = 1
    ∧ (processEventsBatch [tileEvB, tileEvB] 6 exDB).bots = [{ exBotB with score := 20 }]
    ∧ (processEvent (processEvent exDB tileEvB) tileEvB).mines.length = 1
    ∧ (processEvent (processEvent exDB tileEvB) tileEvB).bots
        = [{ exBotB with score := 10 }] := by
  refine ⟨?_, by decide, by decide, by decide, by decide⟩
  intro evs b db
  exact applyMineOps_idem ((evs.map batchMineOps).flatten) db.mines

/-! ### Claim C2 -/

/-- C2: every raw event processed by the batch mutator — whether its key hash
is in `EVENT_MAP` or not — contributes exactly one AuditRecord
(`Transaction`) insert: the inserted documents are exactly `txRowOf` of the
events, the count grows by the number of events, and over any sequence of
scanned blocks the total AuditRecord count equals the total number of raw
events ever scanned. -/
theorem C2_audit_record_per_event (evs : List RawEvent) (b : Nat) (db : DB) :
    (processEventsBatch evs b db).txs = db.txs ++ evs.map (txRowOf b)
    ∧ (processEventsBatch evs b db).txs.length = db.txs.length + evs.length
    ∧ ∀ blocks : List (Nat × List RawEvent),
        (processBlocks db blocks).txs.length
          = db.txs.length + (blocks.map (fun p => p.2.length)).sum := by
  refine ⟨rfl, by simp [processEventsBatch], ?_⟩
  intro blocks
  induction blocks generalizing db with
  | nil => simp [processBlocks]
  | cons p ps ih =>
    have hstep : (fetchAndStoreEventsApply db p).txs.length = db.txs.length + p.2.length := by
      by_cases hp : p.2.isEmpty = true
      · have hnil : p.2 = [] := by simpa using hp
        simp [fetchAndStoreEventsApply, hp, hnil]
      · have hp2 : p.2.isEmpty = false := by simpa using hp
        simp [fetchAndStoreEventsApply, hp2, processEventsBatch]
    have hrec := ih (fetchAndStoreEventsApply db p)
    have hfold : processBlocks db (p :: ps) = processBlocks (fetchAndStoreEventsApply db p) ps := rfl
    rw [hfold, hrec, hstep, List.map_cons, List.sum_cons]
    omega

/-! ### Claim C3 -/

/-- A database holding agent `agentA` with score 10 and a single `Empty`
claim at `(agentA, "0x7")`. -/
def exBotA : BotRow := ⟨("0xa"), ("pl"), ("alive"), 10, ("0x1")⟩

def exMineA : MineRow := ⟨("0xa"), ("0x7"), ("Empty"), ("t0")⟩

def exDB3 : DB := ⟨[exBotA], [exMineA], []⟩

/-- A `DiamondFound` (RewardFound) raw event for `(agentA, _, "0x7")`. -/
def diamondEvA : RawEvent := ⟨7, DIAMOND_FOUND, [("0xa"), ("ig"), ("0x7")], ("t1")⟩

/-- C3 counterexample.  The claim states that applying a `RewardFound`
(`DiamondFound`) event to a state holding an `Empty` claim for the same
`(agentAddress, location)` pair leaves a single claim row of kind Reward.
The per-event mutator `processEvent` (one of the claim's cited code paths)
uses `Mine.create`, an unconditional insert, so the pair ends with two rows
(the old `Empty` one and a new `Diamond` one), refuting the claim as stated;
the score does increase by exactly 5000. -/
theorem C3_reward_overwrite_counterexample :
    (processEvent exDB3 diamondEvA).mines.length = 2
    ∧ (processEvent exDB3 diamondEvA).mines.length ≠ 1
    ∧ (processEvent exDB3 diamondEvA).mines
        = [exMineA, ⟨("0xa"), ("0x7"), ("Diamond"), ("t1")⟩]
    ∧ (processEvent exDB3 diamondEvA).bots = [{ exBotA with score := 5010 }] := by
  refine ⟨by decide, by decide, by decide, by decide⟩

/-- C3 (amended): for every state with exactly one LocationClaim row for the
pair `(a, l)` — of kind `Empty` — and an agent document for `a`, a
`DiamondFound` event whose `data[0]` is `a` and `data[2]` is `l` behaves as
follows.  Through the batch mutator `processEventsBatch` the claim holds as
originally stated: the pair's single row is force-overwritten to kind
`Diamond` (Reward) in place and the agent's score grows by exactly 5000.
Through the per-event mutator `processEvent` the score also grows by exactly
5000, but a second `Diamond` row is appended, so the pair ends with the old
`Empty` row plus the new `Diamond` row instead of a single row. -/
theorem C3_reward_overwrite_amended (db : DB) (e : RawEvent) (blk : Nat)
    (a l : String) (old : MineRow) (bot : BotRow)
    (m₁ m₂ : List MineRow) (b₁ b₂ : List BotRow)
    (he : e.key = DIAMOND_FOUND) (ha : e.dataAt 0 = a) (hl : e.dataAt 2 = l)
    (hmines : db.mines = m₁ ++ old :: m₂)
    (holdkey : mineKey old = (a, l)) (holdkind : old.mine_type = ("Empty"))
    (hm₁ : m₁.any (mineKeyMatch (a, l)) = false)
    (hm₂ : m₂.any (mineKeyMatch (a, l)) = false)
    (hbots : db.bots = b₁ ++ bot :: b₂)
    (hbot : bot.bot_address = a)
    (hb₁ : b₁.any (botAddrMatch a) = false) :
    (processEventsBatch [e] blk db).mines
        = m₁ ++ (⟨a, l, ("Diamond"), e.timestamp⟩ : MineRow) :: m₂
    ∧ (processEventsBatch [e] blk db).mines.filter (mineKeyMatch (a, l))
        = [⟨a, l, ("Diamond"), e.timestamp⟩]
    ∧ (processEventsBatch [e] blk db).bots
        = b₁ ++ { bot with score := bot.score + 5000 } :: b₂
    ∧ (processEvent db e).mines = (m₁ ++ old :: m₂) ++ [⟨a, l, ("Diamond"), e.timestamp⟩]
    ∧ (processEvent db e).mines.filter (mineKeyMatch (a, l))
        = [old, ⟨a, l, ("Diamond"), e.timestamp⟩]
    ∧ (processEvent db e).bots = b₁ ++ { bot with score := bot.score + 5000 } :: b₂ := by
  have hrowmatch : mineKeyMatch (a, l) old = true := by
    simp [mineKeyMatch, holdkey]
  have hnewmatch : mineKeyMatch (a, l) (⟨a, l, ("Diamond"), e.timestamp⟩ : MineRow) = true := by
    simp [mineKeyMatch, mineKey]
  have hbotmatch : botAddrMatch a bot = true := by
    simp [botAddrMatch, hbot]
  have hkey : hasKey db.mines (a, l) = true := by
    rw [hasKey_iff_mem_map, hmines, List.map_append]
    refine List.mem_append_right _ ?_
    simp [holdkey]
  have hbatchmines : (processEventsBatch [e] blk db).mines
      = m₁ ++ (⟨a, l, ("Diamond"), e.timestamp⟩ : MineRow) :: m₂ := by
    show applyMineOps db.mines (([e].map batchMineOps).flatten)
        = m₁ ++ (⟨a, l, ("Diamond"), e.timestamp⟩ : MineRow) :: m₂
    rw [List.map_cons, List.map_nil, batchMineOps_diamond e he, ha, hl]
    show applyMineOp db.mines (MineOp.forceSet a l ("Diamond") e.timestamp)
        = m₁ ++ (⟨a, l, ("Diamond"), e.timestamp⟩ : MineRow) :: m₂
    rw [applyMineOp_force_of_hasKey hkey, hmines]
    exact updateFirst_middle _ _ m₁ m₂ old hm₁ hrowmatch
  have hbatchbots : (processEventsBatch [e] blk db).bots
      = b₁ ++ { bot with score := bot.score + 5000 } :: b₂ := by
    show applyBotOps db.bots (([e].map batchBotOps).flatten)
        = b₁ ++ { bot with score := bot.score + 5000 } :: b₂
    rw [List.map_cons, List.map_nil, batchBotOps_diamond e he, ha]
    show applyBotOp db.bots (BotOp.incScore a 5000)
        = b₁ ++ { bot with score := bot.score + 5000 } :: b₂
    rw [applyBotOp, hbots]
    exact updateFirst_middle _ _ b₁ b₂ bot hb₁ hbotmatch
  have hperun : processEvent db e
      = { db with
            mines := db.mines ++ [⟨a, l, ("Diamond"), e.timestamp⟩]
            bots := updateFirst (botAddrMatch a)
              (fun b => { b with score := b.score + 5000 }) db.bots
            txs := db.txs ++ [txRowOf e.block e] } := by
    rw [processEvent, he, ha, hl]
    rw [if_neg (show ¬((EVENT_MAP DIAMOND_FOUND).isNone = true) by decide)]
    simp only [if_neg (show ¬(DIAMOND_FOUND = TILE_MINED) by decide), if_pos rfl, if_true]
  have hpermines : (processEvent db e).mines
      = (m₁ ++ old :: m₂) ++ [⟨a, l, ("Diamond"), e.timestamp⟩] := by
    rw [hperun]
    show db.mines ++ [⟨a, l, ("Diamond"), e.timestamp⟩]
        = (m₁ ++ old :: m₂) ++ [⟨a, l, ("Diamond"), e.timestamp⟩]
    rw [hmines]
  have hperbots : (processEvent db e).bots
      = b₁ ++ { bot with score := bot.score + 5000 } :: b₂ := by
    rw [hperun]
    show updateFirst (botAddrMatch a) (fun b => { b with score := b.score + 5000 }) db.bots
        = b₁ ++ { bot with score := bot.score + 5000 } :: b₂
    rw [hbots]
    exact updateFirst_middle _ _ b₁ b₂ bot hb₁ hbotmatch
  refine ⟨hbatchmines, ?_, hbatchbots, hpermines, ?_, hperbots⟩
  · rw [hbatchmines]
    exact filter_middle_single _ m₁ m₂ _ hm₁ hm₂ hnewmatch
  · rw [hpermines, List.filter_append, filter_middle_single _ m₁ m₂ old hm₁ hm₂ hrowmatch]
    simp [List.filter_cons, hnewmatch]

/-- C3 amended-claim witness: the scenario state `exDB3` (one `Empty` claim at
`("0xa","0x7")`, agent `"0xa"` with score 10) together with the concrete
`DiamondFound` event satisfies every hypothesis, and the conclusions
evaluate on it. -/
theorem C3_reward_overwrite_amended_witness :
    diamondEvA.key = DIAMOND_FOUND
    ∧ exDB3.mines = [] ++ exMineA :: []
    ∧ mineKey exMineA = (("0xa"), ("0x7"))
    ∧ exDB3.bots = [] ++ exBotA :: []
    ∧ ((processEventsBatch [diamondEvA] 7 exDB3).mines
          = [] ++ (⟨("0xa"), ("0x7"), ("Diamond"), ("t1")⟩ : MineRow) :: []
        ∧ (processEventsBatch [diamondEvA] 7 exDB3).mines.filter
              (mineKeyMatch (("0xa"), ("0x7")))
          = [⟨("0xa"), ("0x7"), ("Diamond"), ("t1")⟩]
        ∧ (processEventsBatch [diamondEvA] 7 exDB3).bots
          = [] ++ { exBotA with score := exBotA.score + 5000 } :: []
        ∧ (processEvent exDB3 diamondEvA).mines
          = ([] ++ exMineA :: []) ++ [⟨("0xa"), ("0x7"), ("Diamond"), ("t1")⟩]
        ∧ (processEvent exDB3 diamondEvA).mines.filter (mineKeyMatch (("0xa"), ("0x7")))
          = [exMineA, ⟨("0xa"), ("0x7"), ("Diamond"), ("t1")⟩]
        ∧ (processEvent exDB3 diamondEvA).bots
          = [] ++ { exBotA with score := exBotA.score + 5000 } :: []) := by
  refine ⟨by decide, by decide, by decide, by decide, ?_⟩
  exact C3_reward_overwrite_amended exDB3 diamondEvA 7 ("0xa") ("0x7") exMineA exBotA
    [] [] [] [] (by decide) (by decide) (by decide) (by decide) (by decide) (by decide)
    (by decide) (by decide) (by decide) (by decide) (by decide)

/-! ### Checkpoint and scan-loop trace model (claims C4 and C5)

`fetchAndStoreEvents(block)` of `pendingBatchIngestion.js` paginates the
block's events inside a `try`, then (when events exist) calls
`processEventsBatch` and finally `updateCheckpoint(block)`; any thrown error
is caught, logged, and swallowed, so on failure neither the mutator nor the
checkpoint write runs.  `fetchLiveBlocks(startBlock)` loops: read the head,
run `fetchAndStoreEvents` for `startBlock+1 .. head`, set
`startBlock := head`, sleep.  We model a run as the trace of actions driven
by a per-block fetch-outcome oracle `f` and the observed head sequence. -/

inductive IngestAction where
  | fetchB (block : Nat)
  | applyB (block : Nat)
  | ckpt (block : Nat)
deriving DecidableEq

inductive FetchOutcome where
  | fail
  | ok (events : List RawEvent)
deriving DecidableEq

/-- Trace of one `fetchAndStoreEvents(block)` call. -/
def blockTrace (b : Nat) : FetchOutcome → List IngestAction
  | .fail => [.fetchB b]
  | .ok evs => .fetchB b :: ((if evs.isEmpty then [] else [.applyB b]) ++ [.ckpt b])

/-- The inner `for (let block = lo; ...)` loop over `n` consecutive blocks. -/
def runBlocks (f : Nat → FetchOutcome) : Nat → Nat → List IngestAction
  | _, 0 => []
  | lo, n + 1 => blockTrace lo (f lo) ++ runBlocks f (lo + 1) n

/-- `fetchLiveBlocks(startBlock)`: per head observation `h`, process blocks
`startBlock+1 .. h` and continue with `startBlock := h`. -/
def fetchLiveBlocks (f : Nat → FetchOutcome) : Nat → List Nat → List IngestAction
  | _, [] => []
  | start, h :: hs => runBlocks f (start + 1) (h - start) ++ fetchLiveBlocks f h hs

/-- The successive values written by `updateCheckpoint` along a trace. -/
def ckptWrites (tr : List IngestAction) : List Nat :=
  tr.filterMap (fun a => match a with | .ckpt b => some b | _ => none)

theorem runBlocks_succ (f : Nat → FetchOutcome) (lo n : Nat) :
    runBlocks f lo (n + 1) = blockTrace lo (f lo) ++ runBlocks f (lo + 1) n := rfl

theorem fetchLiveBlocks_cons (f : Nat → FetchOutcome) (start h : Nat) (hs : List Nat) :
    fetchLiveBlocks f start (h :: hs)
      = runBlocks f (start + 1) (h - start) ++ fetchLiveBlocks f h hs := rfl

theorem ckptWrites_append (l₁ l₂ : List IngestAction) :
    ckptWrites (l₁ ++ l₂) = ckptWrites l₁ ++ ckptWrites l₂ :=
  List.filterMap_append l₁ l₂ _

theorem ckptWrites_blockTrace_fail (b : Nat) :
    ckptWrites (blockTrace b FetchOutcome.fail) = [] := rfl

theorem ckptWrites_blockTrace_ok (b : Nat) (evs : List RawEvent) :
    ckptWrites (blockTrace b (FetchOutcome.ok evs)) = [b] := by
  by_cases h : evs.isEmpty = true
  · simp [blockTrace, ckptWrites, h]
  · have h2 : evs.isEmpty = false := by simpa using h
    simp [blockTrace, ckptWrites, h2]

/-- The checkpoint writes of the inner loop are strictly increasing and stay
inside the processed block range. -/
theorem ckptWrites_runBlocks_chain (f : Nat → FetchOutcome) :
    ∀ (n lo : Nat),
      List.Chain' (· < ·) (ckptWrites (runBlocks f lo n))
      ∧ ∀ x ∈ ckptWrites (runBlocks f lo n), lo ≤ x ∧ x < lo + n := by
  intro n
  induction n with
  | zero =>
    intro lo
    exact ⟨List.chain'_nil, by simp [runBlocks, ckptWrites]⟩
  | succ n ih =>
    intro lo
    obtain ⟨hchain, hmem⟩ := ih (lo + 1)
    rw [runBlocks_succ, ckptWrites_append]
    cases hfo : f lo with
    | fail =>
      rw [ckptWrites_blockTrace_fail]
      refine ⟨by simpa using hchain, ?_⟩
      intro x hx
      simp only [List.nil_append] at hx
      have := hmem x hx
      omega
    | ok evs =>
      rw [ckptWrites_blockTrace_ok]
      rw [List.singleton_append]
      constructor
      · rw [List.chain'_cons']
        refine ⟨?_, hchain⟩
        intro y hy
        have := hmem y (List.mem_of_mem_head? hy)
        omega
      · intro x hx
        rcases List.mem_cons.mp hx with rfl | hx2
        · omega
        · have := hmem x hx2
          omega

/-- Gluing: a strictly increasing block of writes bounded by `m` followed by
writes all above `m` is strictly increasing. -/
theorem chain'_lt_append_of_bound (m : Nat) :
    ∀ (l₁ : List Nat) (a : Nat) (l₂ : List Nat),
      List.Chain' (· < ·) (a :: l₁) →
      (∀ x ∈ a :: l₁, x ≤ m) →
      List.Chain' (· < ·) l₂ →
      (∀ y ∈ l₂, m < y) →
      List.Chain' (· < ·) (a :: (l₁ ++ l₂)) := by
  intro l₁
  induction l₁ with
  | nil =>
    intro a l₂ _ h₂ h₃ h₄
    rw [List.nil_append]
    rw [List.chain'_cons']
    refine ⟨?_, h₃⟩
    intro y hy
    have hym := h₄ y (List.mem_of_mem_head? hy)
    have ham := h₂ a (List.mem_cons_self a [])
    omega
  | cons x xs ih =>
    intro a l₂ h₁ h₂ h₃ h₄
    rw [List.cons_append, List.chain'_cons]
    rw [List.chain'_cons] at h₁
    refine ⟨h₁.1, ih x l₂ h₁.2 ?_ h₃ h₄⟩
    intro z hz
    exact h₂ z (List.mem_cons_of_mem a hz)

/-- Checkpoint writes of a whole `fetchLiveBlocks` run: strictly increasing
and all above the starting checkpoint, provided the observed heads are
non-decreasing (the ledger is append-only). -/
theorem ckptWrites_fetchLiveBlocks_chain (f : Nat → FetchOutcome) :
    ∀ (heads : List Nat) (start : Nat), List.Chain' (· ≤ ·) (start :: heads) →
      List.Chain' (· < ·) (start :: ckptWrites (fetchLiveBlocks f start heads))
      ∧ ∀ x ∈ ckptWrites (fetchLiveBlocks f start heads), start < x := by
  intro heads
  induction heads with
  | nil =>
    intro start _
    exact ⟨List.chain'_singleton start, by simp [fetchLiveBlocks, ckptWrites]⟩
  | cons h hs ih =>
    intro start hch
    have hsh : start ≤ h := (List.chain'_cons.mp hch).1
    have hch2 : List.Chain' (· ≤ ·) (h :: hs) := (List.chain'_cons.mp hch).2
    obtain ⟨ihchain, ihmem⟩ := ih h hch2
    obtain ⟨rbchain, rbmem⟩ := ckptWrites_runBlocks_chain f (h - start) (start + 1)
    rw [fetchLiveBlocks_cons, ckptWrites_append]
    have hWs : ∀ y ∈ ckptWrites (fetchLiveBlocks f h hs), h < y := ihmem
    constructor
    · refine chain'_lt_append_of_bound h _ start _ ?_ ?_ ?_ hWs
      · rw [List.chain'_cons']
        refine ⟨?_, rbchain⟩
        intro y hy
        have := rbmem y (List.mem_of_mem_head? hy)
        omega
      · intro x hx
        rcases List.mem_cons.mp hx with rfl | hx2
        · exact hsh
        · have := rbmem x hx2
          omega
      · exact (List.chain'_cons'.mp ihchain).2
    · intro x hx
      rcases List.mem_append.mp hx with hx1 | hx2
      · have := rbmem x hx1
        omega
      · have := hWs x hx2
        omega

theorem ckpt_mem_blockTrace {b b' : Nat} {o : FetchOutcome}
    (h : IngestAction.ckpt b ∈ blockTrace b' o) : b' = b ∧ ∃ evs, o = FetchOutcome.ok evs := by
  cases o with
  | fail => simp [blockTrace] at h
  | ok evs =>
    refine ⟨?_, evs, rfl⟩
    by_cases he : evs.isEmpty = true
    · simp [blockTrace, he] at h
      exact h.symm
    · have he2 : evs.isEmpty = false := by simpa using he
      simp [blockTrace, he2] at h
      exact h.symm

theorem applyB_mem_blockTrace {b b' : Nat} {o : FetchOutcome}
    (h : IngestAction.applyB b ∈ blockTrace b' o) :
    b' = b ∧ ∃ evs, o = FetchOutcome.ok evs ∧ evs ≠ [] := by
  cases o with
  | fail => simp [blockTrace] at h
  | ok evs =>
    by_cases he : evs.isEmpty = true
    · simp [blockTrace, he] at h
    · have he2 : evs.isEmpty = false := by simpa using he
      simp [blockTrace, he2] at h
      refine ⟨h.symm, evs, rfl, ?_⟩
      simpa using he2

/-- If the events were nonempty, the per-block trace is literally
`[fetch, apply, ckpt]`: the checkpoint write is immediately preceded by the
apply step. -/
theorem blockTrace_ok_nonempty (b : Nat) (evs : List RawEvent) (h : evs ≠ []) :
    blockTrace b (FetchOutcome.ok evs)
      = [IngestAction.fetchB b, IngestAction.applyB b, IngestAction.ckpt b] := by
  have he : evs.isEmpty = false := by
    cases evs with
    | nil => exact absurd rfl h
    | cons x xs => rfl
  simp [blockTrace, he]

theorem ckpt_mem_runBlocks (f : Nat → FetchOutcome) :
    ∀ (n lo b : Nat), IngestAction.ckpt b ∈ runBlocks f lo n →
      ∃ evs, f b = FetchOutcome.ok evs ∧
        (evs = [] ∨ ∃ l₁ l₂, runBlocks f lo n
            = l₁ ++ IngestAction.applyB b :: IngestAction.ckpt b :: l₂) := by
  intro n
  induction n with
  | zero =>
    intro lo b h
    simp [runBlocks] at h
  | succ n ih =>
    intro lo b h
    rw [runBlocks_succ] at h ⊢
    rcases List.mem_append.mp h with h₁ | h₂
    · obtain ⟨rfl, evs, hevs⟩ := ckpt_mem_blockTrace h₁
      refine ⟨evs, hevs, ?_⟩
      by_cases hne : evs = []
      · exact Or.inl hne
      · refine Or.inr ⟨[IngestAction.fetchB lo], runBlocks f (lo + 1) n, ?_⟩
        rw [hevs, blockTrace_ok_nonempty lo evs hne]
        rfl
    · obtain ⟨evs, hevs, hor⟩ := ih (lo + 1) b h₂
      refine ⟨evs, hevs, ?_⟩
      rcases hor with hnil | ⟨l₁, l₂, hdec⟩
      · exact Or.inl hnil
      · refine Or.inr ⟨blockTrace lo (f lo) ++ l₁, l₂, ?_⟩
        rw [hdec, List.append_assoc]

theorem applyB_mem_runBlocks (f : Nat → FetchOutcome) :
    ∀ (n lo b : Nat), IngestAction.applyB b ∈ runBlocks f lo n →
      ∃ evs, f b = FetchOutcome.ok evs ∧ evs ≠ [] := by
  intro n
  induction n with
  | zero =>
    intro lo b h
    simp [runBlocks] at h
  | succ n ih =>
    intro lo b h
    rw [runBlocks_succ] at h
    rcases List.mem_append.mp h with h₁ | h₂
    · obtain ⟨rfl, evs, hevs, hne⟩ := applyB_mem_blockTrace h₁
      exact ⟨evs, hevs, hne⟩
    · exact ih (lo + 1) b h₂

theorem ckpt_mem_fetchLiveBlocks (f : Nat → FetchOutcome) :
    ∀ (heads : List Nat) (start b : Nat),
      IngestAction.ckpt b ∈ fetchLiveBlocks f start heads →
      ∃ evs, f b = FetchOutcome.ok evs ∧
        (evs = [] ∨ ∃ l₁ l₂, fetchLiveBlocks f start heads
            = l₁ ++ IngestAction.applyB b :: IngestAction.ckpt b :: l₂) := by
  intro heads
  induction heads with
  | nil =>
    intro start b h
    simp [fetchLiveBlocks] at h
  | cons hd hs ih =>
    intro start b h
    rw [fetchLiveBlocks_cons] at h ⊢
    rcases List.mem_append.mp h with h₁ | h₂
    · obtain ⟨evs, hevs, hor⟩ := ckpt_mem_runBlocks f (hd - start) (start + 1) b h₁
      refine ⟨evs, hevs, ?_⟩
      rcases hor with hnil | ⟨l₁, l₂, hdec⟩
      · exact Or.inl hnil
      · refine Or.inr ⟨l₁, l₂ ++ fetchLiveBlocks f hd hs, ?_⟩
        rw [hdec]
        simp [List.append_assoc]
    · obtain ⟨evs, hevs, hor⟩ := ih hd b h₂
      refine ⟨evs, hevs, ?_⟩
      rcases hor with hnil | ⟨l₁, l₂, hdec⟩
      · exact Or.inl hnil
      · refine Or.inr ⟨runBlocks f (start + 1) (hd - start) ++ l₁, l₂, ?_⟩
        rw [hdec, List.append_assoc]

theorem applyB_mem_fetchLiveBlocks (f : Nat → FetchOutcome) :
    ∀ (heads : List Nat) (start b : Nat),
      IngestAction.applyB b ∈ fetchLiveBlocks f start heads →
      ∃ evs, f b = FetchOutcome.ok evs ∧ evs ≠ [] := by
  intro heads
  induction heads with
  | nil =>
    intro start b h
    simp [fetchLiveBlocks] at h
  | cons hd hs ih =>
    intro start b h
    rw [fetchLiveBlocks_cons] at h
    rcases List.mem_append.mp h with h₁ | h₂
    · exact applyB_mem_runBlocks f (hd - start) (start + 1) b h₁
    · exact ih hd b h₂

/-! ### Claim C4 -/

/-- C4: over any run of the ingestion loop of `pendingBatchIngestion.js`
(driven by a non-decreasing sequence of head observations, the ledger being
append-only), the sequence of checkpoint values written is monotonically
non-decreasing starting from the initial checkpoint, and a checkpoint write
for block `b` happens only when that block's fetch succeeded and — whenever
the block had events — strictly after (in fact immediately after) the
block's `processEventsBatch` apply step. -/
theorem C4_checkpoint_monotone_ordered (f : Nat → FetchOutcome) (start : Nat)
    (heads : List Nat) (hch : List.Chain' (· ≤ ·) (start :: heads)) :
    List.Chain' (· ≤ ·) (start :: ckptWrites (fetchLiveBlocks f start heads))
    ∧ ∀ b, IngestAction.ckpt b ∈ fetchLiveBlocks f start heads →
        ∃ evs, f b = FetchOutcome.ok evs ∧
          (evs = [] ∨ ∃ l₁ l₂, fetchLiveBlocks f start heads
              = l₁ ++ IngestAction.applyB b :: IngestAction.ckpt b :: l₂) := by
  constructor
  · have hlt := (ckptWrites_fetchLiveBlocks_chain f heads start hch).1
    exact hlt.imp (fun a b hab => le_of_lt hab)
  · intro b hb
    exact ckpt_mem_fetchLiveBlocks f heads start b hb

/-- A fetch-outcome oracle where every block succeeds with one event. -/
def okOracle : Nat → FetchOutcome := fun _ => FetchOutcome.ok [tileEvB]

/-- C4 witness: a concrete two-head run starting from checkpoint 0. -/
theorem C4_checkpoint_monotone_ordered_witness :
    List.Chain' (· ≤ ·) (0 :: [1, 2])
    ∧ (List.Chain' (· ≤ ·) (0 :: ckptWrites (fetchLiveBlocks okOracle 0 [1, 2]))
      ∧ ∀ b, IngestAction.ckpt b ∈ fetchLiveBlocks okOracle 0 [1, 2] →
          ∃ evs, okOracle b = FetchOutcome.ok evs ∧
            (evs = [] ∨ ∃ l₁ l₂, fetchLiveBlocks okOracle 0 [1, 2]
                = l₁ ++ IngestAction.applyB b :: IngestAction.ckpt b :: l₂)) := by
  have hch : List.Chain' (· ≤ ·) ((0 : Nat) :: [1, 2]) :=
    List.chain'_cons.mpr ⟨by omega,
      List.chain'_cons.mpr ⟨by omega, List.chain'_singleton 2⟩⟩
  exact ⟨hch, C4_checkpoint_monotone_ordered okOracle 0 [1, 2] hch⟩

/-! ### Claim C5 -/

/-- An oracle where the fetch of block 1 fails and every other block
succeeds with one event. -/
def failOracle : Nat → FetchOutcome :=
  fun b => if b = 1 then FetchOutcome.fail else FetchOutcome.ok [tileEvB]

/-- C5 counterexample.  The claim states that a block whose RPC fetch fails
is retried and the loop does not advance, so no block is ever skipped.  In
`pendingBatchIngestion.js` the error is caught and swallowed inside
`fetchAndStoreEvents`, so in the concrete run below block 1 is fetched
exactly once, never applied, never checkpointed, and the loop still advances
to block 2, which is applied and checkpointed — block 1 is skipped for good. -/
theorem C5_retry_counterexample :
    fetchLiveBlocks failOracle 0 [2]
      = [IngestAction.fetchB 1, IngestAction.fetchB 2,
         IngestAction.applyB 2, IngestAction.ckpt 2]
    ∧ (fetchLiveBlocks failOracle 0 [2]).count (IngestAction.fetchB 1) = 1
    ∧ IngestAction.applyB 1 ∉ fetchLiveBlocks failOracle 0 [2]
    ∧ IngestAction.ckpt 1 ∉ fetchLiveBlocks failOracle 0 [2]
    ∧ IngestAction.ckpt 2 ∈ fetchLiveBlocks failOracle 0 [2] := by
  refine ⟨by decide, by decide, by decide, by decide, by decide⟩

theorem count_fetchB_blockTrace (b b' : Nat) (o : FetchOutcome) :
    (blockTrace b' o).count (IngestAction.fetchB b) = if b' = b then 1 else 0 := by
  cases o with
  | fail =>
    by_cases hb : b' = b <;>
      simp [blockTrace, hb, List.count_cons, List.count_nil]
  | ok evs =>
    by_cases he : evs.isEmpty = true
    · by_cases hb : b' = b <;>
        simp [blockTrace, he, hb, List.count_cons, List.count_nil]
    · have he2 : evs.isEmpty = false := by simpa using he
      by_cases hb : b' = b <;>
        simp [blockTrace, he2, hb, List.count_cons, List.count_nil]

theorem count_fetchB_runBlocks (f : Nat → FetchOutcome) :
    ∀ (n lo b : Nat),
      (runBlocks f lo n).count (IngestAction.fetchB b)
        = if lo ≤ b ∧ b < lo + n then 1 else 0 := by
  intro n
  induction n with
  | zero =>
    intro lo b
    rw [show runBlocks f lo 0 = [] from rfl, List.count_nil]
    split_ifs with hc
    · omega
    · rfl
  | succ n ih =>
    intro lo b
    rw [runBlocks_succ, List.count_append, count_fetchB_blockTrace, ih (lo + 1) b]
    split_ifs <;> omega

theorem getLastD_ge_of_chain :
    ∀ (hs : List Nat) (h : Nat), List.Chain' (· ≤ ·) (h :: hs) → h ≤ hs.getLastD h := by
  intro hs
  induction hs with
  | nil => intro h _; simp
  | cons h' hs ih =>
    intro h hch
    rw [List.chain'_cons] at hch
    have := ih h' hch.2
    rw [List.getLastD_cons]
    omega

theorem count_fetchB_fetchLiveBlocks (f : Nat → FetchOutcome) :
    ∀ (heads : List Nat) (start b : Nat), List.Chain' (· ≤ ·) (start :: heads) →
      (fetchLiveBlocks f start heads).count (IngestAction.fetchB b)
        = if start < b ∧ b ≤ heads.getLastD start then 1 else 0 := by
  intro heads
  induction heads with
  | nil =>
    intro start b _
    rw [show fetchLiveBlocks f start [] = [] from rfl, List.count_nil]
    rw [show List.getLastD [] start = start from rfl]
    split_ifs with hc
    · omega
    · rfl
  | cons h hs ih =>
    intro start b hch
    have hsh : start ≤ h := (List.chain'_cons.mp hch).1
    have hch2 : List.Chain' (· ≤ ·) (h :: hs) := (List.chain'_cons.mp hch).2
    have hlast : h ≤ hs.getLastD h := getLastD_ge_of_chain hs h hch2
    rw [fetchLiveBlocks_cons, List.count_append, count_fetchB_runBlocks,
      ih h b hch2, List.getLastD_cons]
    split_ifs <;> omega

/-- C5 (amended): on a block whose ledger RPC fetch fails, the error is
caught and swallowed inside `fetchAndStoreEvents`, so the block is *not*
retried and the loop advances past it: over any run with non-decreasing head
observations, every block in the scanned range `(start, lastHead]` is fetched
exactly once — regardless of failures — and a failed block receives no
apply step and no checkpoint write, ever (it is skipped permanently, while
later blocks are still processed). -/
theorem C5_failed_block_amended (f : Nat → FetchOutcome) (start : Nat)
    (heads : List Nat) (b : Nat)
    (hch : List.Chain' (· ≤ ·) (start :: heads)) :
    ((fetchLiveBlocks f start heads).count (IngestAction.fetchB b)
        = if start < b ∧ b ≤ heads.getLastD start then 1 else 0)
    ∧ (f b = FetchOutcome.fail →
        IngestAction.applyB b ∉ fetchLiveBlocks f start heads
        ∧ IngestAction.ckpt b ∉ fetchLiveBlocks f start heads) := by
  refine ⟨count_fetchB_fetchLiveBlocks f heads start b hch, ?_⟩
  intro hfail
  constructor
  · intro hmem
    obtain ⟨evs, hevs, -⟩ := applyB_mem_fetchLiveBlocks f heads start b hmem
    rw [hfail] at hevs
    exact FetchOutcome.noConfusion hevs
  · intro hmem
    obtain ⟨evs, hevs, -⟩ := ckpt_mem_fetchLiveBlocks f heads start b hmem
    rw [hfail] at hevs
    exact FetchOutcome.noConfusion hevs

/-- C5 amended-claim witness: in the concrete failing run, block 1 is fetched
exactly once and gets neither apply nor checkpoint. -/
theorem C5_failed_block_amended_witness :
    List.Chain' (· ≤ ·) (0 :: [2])
    ∧ failOracle 1 = FetchOutcome.fail
    ∧ ((fetchLiveBlocks failOracle 0 [2]).count (IngestAction.fetchB 1)
          = if 0 < 1 ∧ 1 ≤ [2].getLastD 0 then 1 else 0)
    ∧ (failOracle 1 = FetchOutcome.fail →
        IngestAction.applyB 1 ∉ fetchLiveBlocks failOracle 0 [2]
        ∧ IngestAction.ckpt 1 ∉ fetchLiveBlocks failOracle 0 [2]) := by
  have hch : List.Chain' (· ≤ ·) ((0 : Nat) :: [2]) :=
    List.chain'_cons.mpr ⟨by omega, List.chain'_singleton 2⟩
  exact ⟨hch, by decide,
    (C5_failed_block_amended failOracle 0 [2] 1 hch).1,
    (C5_failed_block_amended failOracle 0 [2] 1 hch).2⟩

/-! ### Live fan-out: the rate-limited `TransactionManager` of `src/unnamed/part_001`

State: the shared `transactionQueue` (Broadcast Buffer), the pending-window
`continuationToken`, the `isFetching` reentrancy flag, and the
`connectedClients` map (keyed by connection, modelled as an association list
with insertion order, matching JS `Map` iteration).  Each client carries
`{id, batchSize, nextBatchTime, batchInterval, queueBacklog}`.

`fetchTransactions` is driven by an oracle describing the RPC outcome: a
thrown error, a malformed body (`!result?.result?.events`), or a page of
events plus a continuation token.  `sendBatchToClient` is driven by the
wall-clock `now`, the socket's open state, and whether `ws.send` succeeds. -/

/-- An item of the shared queue / personal backlogs (`BroadcastItem`). -/
structure BItem where
  event_name : String
  data : List String
  timestamp : Nat
deriving DecidableEq

/-- A raw pending-window event as returned by `starknet_getEvents`. -/
structure RawTx where
  keys : List String
  data : List String
deriving DecidableEq

/-- Formatting in the rate-limited manager:
`{event_name: EVENT_MAP[tx.keys[0]] || "TransferEvent", data, timestamp: Date.now()}`. -/
def formatTx (now : Nat) (tx : RawTx) : BItem :=
  ⟨(EVENT_MAP (tx.keys.getD 0 "")).getD ("TransferEvent"), tx.data, now⟩

structure ClientInfo where
  id : Nat
  batchSize : Nat
  nextBatchTime : Nat
  batchInterval : Nat
  queueBacklog : List BItem
deriving DecidableEq

structure MgrState where
  transactionQueue : List BItem
  continuationToken : Option String
  isFetching : Bool
  connectedClients : List (Nat × ClientInfo)
deriving DecidableEq

/-- `this.maxQueueSize = 5000`. -/
def maxQueueSize : Nat := 5000

/-- The personal-backlog cap (`1000` in `sendBatchToClient`). -/
def backlogCap : Nat := 1000

/-- Outcome of one pending-window RPC round trip. -/
inductive FetchResult where
  | err
  | malformed
  | page (events : List RawTx) (token : Option String)
deriving DecidableEq

/-- `fetchTransactions(limit)` of the rate-limited manager.  Returns the new
state and whether an RPC fetch was actually issued.  The guards: an
in-flight fetch returns immediately, and a queue at or above
`maxQueueSize` skips the fetch entirely.  On a page with events, the token
is advanced to the page's token and only the first
`min(n, maxQueueSize - queue.length)` events are formatted and enqueued;
on error or malformed body the state is left unchanged (the token is *not*
reset). -/
def fetchTransactions (st : MgrState) (res : FetchResult) (now : Nat) : MgrState × Bool :=
  if st.isFetching then (st, false)
  else if maxQueueSize ≤ st.transactionQueue.length then (st, false)
  else
    match res with
    | .err => (st, true)
    | .malformed => (st, true)
    | .page evs tok =>
        if 0 < evs.length then
          ({ st with
              continuationToken := tok
              transactionQueue := st.transactionQueue ++
                ((evs.take (min evs.length (maxQueueSize - st.transactionQueue.length))).map
                  (formatTx now)) },
           true)
        else (st, true)

/-- `queueBacklog.push(...batch)` followed by the cap:
`if (len > 1000) backlog = backlog.slice(-1000)`. -/
def capBacklog (backlog : List BItem) : List BItem :=
  if backlogCap < backlog.length then backlog.drop (backlog.length - backlogCap) else backlog

/-- `batchInterval * queueFactor` where
`queueFactor = len > 1000 ? 0.5 : len > 500 ? 0.7 : 1`
(integer form; exact for the interval 100 used by the source). -/
def nextDelay (qlen interval : Nat) : Nat :=
  if 1000 < qlen then interval * 5 / 10
  else if 500 < qlen then interval * 7 / 10
  else interval

/-- `connectedClients.delete(ws)`. -/
def clientsRemove (ws : Nat) (cs : List (Nat × ClientInfo)) : List (Nat × ClientInfo) :=
  cs.filter (fun p => p.1 != ws)

/-- `sendBatchToClient(ws)`, one invocation (the self-rescheduling
`setTimeout` is the driver and is external to the state transition).
Returns the new state and the batch sent, if any.

Branches, in source order: unknown/closed socket → client deleted; not yet
time → nothing; non-empty personal backlog → splice a batch from it (shared
queue untouched); else non-empty shared queue → splice a batch from it and
append it (capped) to every *other* client's backlog; in either send branch
a `ws.send` failure deletes the client after the splice already happened.
After a send (or when both sources were empty) `nextBatchTime` is advanced
by the adaptive delay, computed from the post-splice shared-queue length. -/
def sendBatchToClient (st : MgrState) (ws : Nat) (now : Nat) (wsOpen : Bool) (sendOk : Bool) :
    MgrState × Option (List BItem) :=
  match st.connectedClients.lookup ws with
  | none => (st, none)
  | some ci =>
    if wsOpen = false then
      ({ st with connectedClients := clientsRemove ws st.connectedClients }, none)
    else if now < ci.nextBatchTime then (st, none)
    else if ci.queueBacklog ≠ [] then
      if sendOk then
        ({ st with connectedClients :=
            st.connectedClients.map (fun p =>
              if p.1 = ws then
                (p.1, { p.2 with
                  queueBacklog := p.2.queueBacklog.drop (min ci.queueBacklog.length ci.batchSize)
                  nextBatchTime := now + nextDelay st.transactionQueue.length p.2.batchInterval })
              else p) },
         some (ci.queueBacklog.take (min ci.queueBacklog.length ci.batchSize)))
      else ({ st with connectedClients := clientsRemove ws st.connectedClients }, none)
    else if st.transactionQueue ≠ [] then
      if sendOk then
        ({ st with
            transactionQueue :=
              st.transactionQueue.drop (min st.transactionQueue.length ci.batchSize)
            connectedClients :=
              st.connectedClients.map (fun p =>
                if p.1 = ws then
                  (p.1, { p.2 with
                    nextBatchTime := now +
                      nextDelay
                        (st.transactionQueue.drop
                          (min st.transactionQueue.length ci.batchSize)).length
                        p.2.batchInterval })
                else (p.1, { p.2 with queueBacklog := capBacklog (p.2.queueBacklog ++
                  st.transactionQueue.take (min st.transactionQueue.length ci.batchSize)) })) },
         some (st.transactionQueue.take (min st.transactionQueue.length ci.batchSize)))
      else
        ({ st with
            transactionQueue :=
              st.transactionQueue.drop (min st.transactionQueue.length ci.batchSize)
            connectedClients := clientsRemove ws st.connectedClients }, none)
    else
      ({ st with connectedClients :=
          st.connectedClients.map (fun p =>
            if p.1 = ws then
              (p.1, { p.2 with
                nextBatchTime := now + nextDelay st.transactionQueue.length p.2.batchInterval })
            else p) }, none)

/-- `startStreaming(ws, clientId)`: register the client with
`{batchSize: 10, nextBatchTime: Date.now(), batchInterval: 100, queueBacklog: []}`
(fresh connections carry fresh keys). -/
def startStreaming (st : MgrState) (ws clientId now : Nat) : MgrState :=
  { st with connectedClients := st.connectedClients ++ [(ws, ⟨clientId, 10, now, 100, []⟩)] }

/-- `removeClient(ws)`: delete the client; when the last client leaves, stop
polling, clear the shared queue and reset the continuation token. -/
def removeClient (st : MgrState) (ws : Nat) : MgrState :=
  let cs := clientsRemove ws st.connectedClients
  if cs.isEmpty then
    { transactionQueue := [], continuationToken := none
      isFetching := st.isFetching, connectedClients := cs }
  else { st with connectedClients := cs }

/-- The manager as constructed: empty queue, no token, no clients. -/
def initialMgr : MgrState := ⟨[], none, false, []⟩

/-- One scheduler step of the fan-out server: a poll tick, a delivery tick,
a connection, or a disconnection, each with its environment oracle. -/
inductive MgrStep : MgrState → MgrState → Prop where
  | fetch {st : MgrState} (res : FetchResult) (now : Nat) :
      MgrStep st (fetchTransactions st res now).1
  | tick {st : MgrState} (ws now : Nat) (wsOpen sendOk : Bool) :
      MgrStep st (sendBatchToClient st ws now wsOpen sendOk).1
  | register {st : MgrState} (ws clientId now : Nat) :
      MgrStep st (startStreaming st ws clientId now)
  | remove {st : MgrState} (ws : Nat) :
      MgrStep st (removeClient st ws)

/-- States reachable from the freshly constructed manager. -/
def ReachableMgr (st : MgrState) : Prop := Relation.ReflTransGen MgrStep initialMgr st

theorem fetchTransactions_queue_le (st : MgrState) (res : FetchResult) (now : Nat)
    (h : st.transactionQueue.length ≤ maxQueueSize) :
    (fetchTransactions st res now).1.transactionQueue.length ≤ maxQueueSize := by
  by_cases hf : st.isFetching = true
  · simp only [fetchTransactions, if_pos hf]
    exact h
  · by_cases hq : maxQueueSize ≤ st.transactionQueue.length
    · simp only [fetchTransactions, if_neg hf, if_pos hq]
      exact h
    · cases res with
      | err =>
        simp only [fetchTransactions, if_neg hf, if_neg hq]
        exact h
      | malformed =>
        simp only [fetchTransactions, if_neg hf, if_neg hq]
        exact h
      | page evs tok =>
        by_cases he : 0 < evs.length
        · simp only [fetchTransactions, if_neg hf, if_neg hq, if_pos he,
            List.length_append, List.length_map, List.length_take]
          omega
        · simp only [fetchTransactions, if_neg hf, if_neg hq, if_neg he]
          exact h

theorem fetchTransactions_clients (st : MgrState) (res : FetchResult) (now : Nat) :
    (fetchTransactions st res now).1.connectedClients = st.connectedClients := by
  by_cases hf : st.isFetching = true
  · simp only [fetchTransactions, if_pos hf]
  · by_cases hq : maxQueueSize ≤ st.transactionQueue.length
    · simp only [fetchTransactions, if_neg hf, if_pos hq]
    · cases res with
      | err => simp only [fetchTransactions, if_neg hf, if_neg hq]
      | malformed => simp only [fetchTransactions, if_neg hf, if_neg hq]
      | page evs tok =>
        by_cases he : 0 < evs.length
        · simp only [fetchTransactions, if_neg hf, if_neg hq, if_pos he]
        · simp only [fetchTransactions, if_neg hf, if_neg hq, if_neg he]

theorem sendBatchToClient_queue_shrinks (st : MgrState) (ws now : Nat) (wsOpen sendOk : Bool) :
    (sendBatchToClient st ws now wsOpen sendOk).1.transactionQueue.length
      ≤ st.transactionQueue.length := by
  unfold sendBatchToClient
  cases hc : st.connectedClients.lookup ws with
  | none => exact le_refl _
  | some ci =>
    dsimp only
    split_ifs <;> simp only [List.length_drop] <;> omega

theorem startStreaming_queue (st : MgrState) (ws clientId now : Nat) :
    (startStreaming st ws clientId now).transactionQueue = st.transactionQueue := rfl

theorem removeClient_queue_le (st : MgrState) (ws : Nat) :
    (removeClient st ws).transactionQueue.length ≤ st.transactionQueue.length := by
  unfold removeClient
  dsimp only
  split_ifs <;> simp

theorem mgrStep_queue_le {st st' : MgrState} (h : MgrStep st st')
    (hq : st.transactionQueue.length ≤ maxQueueSize) :
    st'.transactionQueue.length ≤ maxQueueSize := by
  cases h with
  | fetch res now => exact fetchTransactions_queue_le st res now hq
  | tick ws now wsOpen sendOk =>
    exact le_trans (sendBatchToClient_queue_shrinks st ws now wsOpen sendOk) hq
  | register ws clientId now => exact hq
  | remove ws => exact le_trans (removeClient_queue_le st ws) hq

/-! ### Claim C6 -/

/-- C6: in every reachable state of the fan-out manager the shared
transaction queue never exceeds `maxQueueSize` (5000), and whenever the
queue is at or above that capacity, a poll tick performs no fetch at all and
leaves the state untouched. -/
theorem C6_queue_capacity (st : MgrState) (h : ReachableMgr st) :
    st.transactionQueue.length ≤ maxQueueSize
    ∧ ∀ (res : FetchResult) (now : Nat),
        maxQueueSize ≤ st.transactionQueue.length →
        fetchTransactions st res now = (st, false) := by
  constructor
  · induction h with
    | refl => exact Nat.zero_le _
    | tail hsteps hstep ih => exact mgrStep_queue_le hstep ih
  · intro res now hge
    by_cases hf : st.isFetching = true
    · simp only [fetchTransactions, if_pos hf]
    · simp only [fetchTransactions, if_neg hf, if_pos hge]

/-- A pending-window raw event with a mapped key hash. -/
def sampleTx : RawTx := ⟨[TILE_MINED], [("0xb"), ("xx"), ("0x3")]⟩

/-- C6 witness: the state reached by one successful poll from the fresh
manager is reachable, its queue respects the capacity, and at capacity the
fetch is a no-op. -/
theorem C6_queue_capacity_witness :
    ReachableMgr (fetchTransactions initialMgr (FetchResult.page [sampleTx] none) 5).1
    ∧ ((fetchTransactions initialMgr (FetchResult.page [sampleTx] none) 5).1.transactionQueue.length
          ≤ maxQueueSize
      ∧ ∀ (res : FetchResult) (now : Nat),
          maxQueueSize ≤
            (fetchTransactions initialMgr
              (FetchResult.page [sampleTx] none) 5).1.transactionQueue.length →
          fetchTransactions (fetchTransactions initialMgr
              (FetchResult.page [sampleTx] none) 5).1 res now
            = ((fetchTransactions initialMgr (FetchResult.page [sampleTx] none) 5).1, false)) := by
  have hreach : ReachableMgr (fetchTransactions initialMgr (FetchResult.page [sampleTx] none) 5).1 :=
    Relation.ReflTransGen.single (MgrStep.fetch (FetchResult.page [sampleTx] none) 5)
  exact ⟨hreach, C6_queue_capacity _ hreach⟩

/-! ### Claim C7 -/

theorem capBacklog_length_le (l : List BItem) : (capBacklog l).length ≤ backlogCap := by
  unfold capBacklog
  split_ifs with h
  · simp only [List.length_drop]
    omega
  · omega

/-- Every client of a state, after one delivery tick, keeps a backlog within
the cap if it did before. -/
theorem sendBatchToClient_backlogs (st : MgrState) (ws now : Nat) (wsOpen sendOk : Bool)
    (h : ∀ p ∈ st.connectedClients, p.2.queueBacklog.length ≤ backlogCap) :
    ∀ p ∈ (sendBatchToClient st ws now wsOpen sendOk).1.connectedClients,
      p.2.queueBacklog.length ≤ backlogCap := by
  unfold sendBatchToClient
  cases hc : st.connectedClients.lookup ws with
  | none => exact h
  | some ci =>
    dsimp only
    split_ifs <;> intro p hp
    · exact h p (List.mem_of_mem_filter hp)
    · exact h p hp
    · rcases List.mem_map.mp hp with ⟨q, hq, rfl⟩
      have hqb := h q hq
      by_cases hqw : q.1 = ws
      · rw [if_pos hqw]
        dsimp only
        simp only [List.length_drop]
        omega
      · rw [if_neg hqw]
        exact hqb
    · exact h p (List.mem_of_mem_filter hp)
    · rcases List.mem_map.mp hp with ⟨q, hq, rfl⟩
      have hqb := h q hq
      by_cases hqw : q.1 = ws
      · rw [if_pos hqw]
        exact hqb
      · rw [if_neg hqw]
        exact capBacklog_length_le _
    · exact h p (List.mem_of_mem_filter hp)
    · rcases List.mem_map.mp hp with ⟨q, hq, rfl⟩
      have hqb := h q hq
      by_cases hqw : q.1 = ws
      · rw [if_pos hqw]
        exact hqb
      · rw [if_neg hqw]
        exact hqb

theorem mgrStep_backlogs {st st' : MgrState} (h : MgrStep st st')
    (hb : ∀ p ∈ st.connectedClients, p.2.queueBacklog.length ≤ backlogCap) :
    ∀ p ∈ st'.connectedClients, p.2.queueBacklog.length ≤ backlogCap := by
  cases h with
  | fetch res now =>
    rw [fetchTransactions_clients]
    exact hb
  | tick ws now wsOpen sendOk => exact sendBatchToClient_backlogs st ws now wsOpen sendOk hb
  | register ws clientId now =>
    intro p hp
    rcases List.mem_append.mp hp with hp1 | hp2
    · exact hb p hp1
    · rcases List.mem_singleton.mp hp2 with rfl
      exact Nat.zero_le _
  | remove ws =>
    intro p hp
    unfold removeClient at hp
    dsimp only at hp
    split_ifs at hp <;> exact hb p (List.mem_of_mem_filter hp)

/-- C7: in every reachable state, every subscriber's personal backlog length
is at most the cap (1000); moreover the capped append operation keeps
exactly the most recent `min(total, 1000)` items, in order, evicting the
oldest prefix. -/
theorem C7_backlog_cap_eviction (st : MgrState) (h : ReachableMgr st) :
    (∀ p ∈ st.connectedClients, p.2.queueBacklog.length ≤ backlogCap)
    ∧ ∀ backlog batch : List BItem,
        (capBacklog (backlog ++ batch)).length
            = min (backlog.length + batch.length) backlogCap
        ∧ (backlog ++ batch).take (backlog.length + batch.length - backlogCap)
            ++ capBacklog (backlog ++ batch) = backlog ++ batch := by
  constructor
  · induction h with
    | refl => intro p hp; simp [initialMgr] at hp
    | tail hsteps hstep ih => exact mgrStep_backlogs hstep ih
  · intro backlog batch
    constructor
    · unfold capBacklog
      split_ifs with hlen
      · simp only [List.length_drop, List.length_append] at *
        omega
      · simp only [List.length_append] at *
        omega
    · unfold capBacklog
      split_ifs with hlen
      · rw [← List.length_append]
        exact List.take_append_drop _ _
      · rw [← List.length_append]
        have hz : (backlog ++ batch).length - backlogCap = 0 := by
          rw [List.length_append] at hlen ⊢
          omega
        rw [hz, List.take_zero, List.nil_append]

/-- C7 witness: after one connection, the manager with a single fresh client
is reachable and its (empty) backlog is within the cap; eviction keeps the
newest items on a concrete overflow. -/
theorem C7_backlog_cap_eviction_witness :
    ReachableMgr (startStreaming initialMgr 1 1 0)
    ∧ ((∀ p ∈ (startStreaming initialMgr 1 1 0).connectedClients,
          p.2.queueBacklog.length ≤ backlogCap)
      ∧ ∀ backlog batch : List BItem,
          (capBacklog (backlog ++ batch)).length
              = min (backlog.length + batch.length) backlogCap
          ∧ (backlog ++ batch).take (backlog.length + batch.length - backlogCap)
              ++ capBacklog (backlog ++ batch) = backlog ++ batch) := by
  have hreach : ReachableMgr (startStreaming initialMgr 1 1 0) :=
    Relation.ReflTransGen.single (MgrStep.register 1 1 0)
  exact ⟨hreach, C7_backlog_cap_eviction _ hreach⟩

/-! ### Claim C8 -/

/-- C8: on a delivery tick for a subscriber whose send time has arrived and
whose socket and send succeed: if the personal backlog is non-empty, the
batch sent is taken exclusively from the personal backlog, the shared queue
is untouched and every other subscriber's entry is unchanged; only when the
personal backlog is empty is a batch of `k = min(queue.length, batchSize)`
items drained from the shared queue, and then exactly that batch is appended,
in order (capped at 1000), to the personal backlog of every other connected
subscriber, while the drainer's own entry keeps its (empty) backlog — so the
others receive those `k` items via their backlog, which the tick policy
drains before any newer shared-queue item. -/
theorem C8_tick_backlog_priority (st : MgrState) (ws now : Nat) (ci : ClientInfo)
    (hc : st.connectedClients.lookup ws = some ci)
    (ht : ci.nextBatchTime ≤ now) :
    (ci.queueBacklog ≠ [] →
      (sendBatchToClient st ws now true true).2
          = some (ci.queueBacklog.take (min ci.queueBacklog.length ci.batchSize))
      ∧ (sendBatchToClient st ws now true true).1.transactionQueue = st.transactionQueue
      ∧ ∀ p ∈ st.connectedClients, p.1 ≠ ws →
          p ∈ (sendBatchToClient st ws now true true).1.connectedClients)
    ∧ (ci.queueBacklog = [] → st.transactionQueue ≠ [] →
      (sendBatchToClient st ws now true true).2
          = some (st.transactionQueue.take (min st.transactionQueue.length ci.batchSize))
      ∧ (sendBatchToClient st ws now true true).1.transactionQueue
          = st.transactionQueue.drop (min st.transactionQueue.length ci.batchSize)
      ∧ (∀ p ∈ st.connectedClients, p.1 ≠ ws →
          (p.1, { p.2 with queueBacklog := capBacklog (p.2.queueBacklog ++
              st.transactionQueue.take (min st.transactionQueue.length ci.batchSize)) })
            ∈ (sendBatchToClient st ws now true true).1.connectedClients)
      ∧ ∀ p ∈ st.connectedClients, p.1 = ws →
          (p.1, { p.2 with nextBatchTime := (now + nextDelay
              (st.transactionQueue.drop (min st.transactionQueue.length ci.batchSize)).length
              p.2.batchInterval) })
            ∈ (sendBatchToClient st ws now true true).1.connectedClients) := by
  have hnt : ¬ now < ci.nextBatchTime := by omega
  have hno : ¬ (true = false) := by decide
  constructor
  · intro hb
    have heq : sendBatchToClient st ws now true true
        = ({ st with connectedClients :=
            st.connectedClients.map (fun p =>
              if p.1 = ws then
                (p.1, { p.2 with
                  queueBacklog := p.2.queueBacklog.drop (min ci.queueBacklog.length ci.batchSize)
                  nextBatchTime := now + nextDelay st.transactionQueue.length p.2.batchInterval })
              else p) },
           some (ci.queueBacklog.take (min ci.queueBacklog.length ci.batchSize))) := by
      unfold sendBatchToClient
      rw [hc]
      dsimp only
      rw [if_neg hno, if_neg hnt, if_pos hb, if_pos rfl]
    rw [heq]
    refine ⟨rfl, rfl, ?_⟩
    intro p hp hpw
    have hm := List.mem_map_of_mem (fun p =>
        if p.1 = ws then
          (p.1, { p.2 with
            queueBacklog := p.2.queueBacklog.drop (min ci.queueBacklog.length ci.batchSize)
            nextBatchTime := now + nextDelay st.transactionQueue.length p.2.batchInterval })
        else p) hp
    dsimp only at hm
    rw [if_neg hpw] at hm
    exact hm
  · intro hb hq
    have hnb : ¬ ci.queueBacklog ≠ [] := fun hne => hne hb
    have heq : sendBatchToClient st ws now true true
        = ({ st with
            transactionQueue :=
              st.transactionQueue.drop (min st.transactionQueue.length ci.batchSize)
            connectedClients :=
              st.connectedClients.map (fun p =>
                if p.1 = ws then
                  (p.1, { p.2 with
                    nextBatchTime := now +
                      nextDelay
                        (st.transactionQueue.drop
                          (min st.transactionQueue.length ci.batchSize)).length
                        p.2.batchInterval })
                else (p.1, { p.2 with queueBacklog := capBacklog (p.2.queueBacklog ++
                  st.transactionQueue.take (min st.transactionQueue.length ci.batchSize)) })) },
           some (st.transactionQueue.take (min st.transactionQueue.length ci.batchSize))) := by
      unfold sendBatchToClient
      rw [hc]
      dsimp only
      rw [if_neg hno, if_neg hnt, if_neg hnb, if_pos hq, if_pos rfl]
    rw [heq]
    refine ⟨rfl, rfl, ?_, ?_⟩
    · intro p hp hpw
      have hm := List.mem_map_of_mem (fun p =>
          if p.1 = ws then
            (p.1, { p.2 with
              nextBatchTime := now +
                nextDelay
                  (st.transactionQueue.drop
                    (min st.transactionQueue.length ci.batchSize)).length
                  p.2.batchInterval })
          else (p.1, { p.2 with queueBacklog := capBacklog (p.2.queueBacklog ++
            st.transactionQueue.take (min st.transactionQueue.length ci.batchSize)) })) hp
      dsimp only at hm
      rw [if_neg hpw] at hm
      exact hm
    · intro p hp hpw
      have hm := List.mem_map_of_mem (fun p =>
          if p.1 = ws then
            (p.1, { p.2 with
              nextBatchTime := now +
                nextDelay
                  (st.transactionQueue.drop
                    (min st.transactionQueue.length ci.batchSize)).length
                  p.2.batchInterval })
          else (p.1, { p.2 with queueBacklog := capBacklog (p.2.queueBacklog ++
            st.transactionQueue.take (min st.transactionQueue.length ci.batchSize)) })) hp
      dsimp only at hm
      rw [if_pos hpw] at hm
      exact hm

/-- Three freshly connected subscribers sharing a three-item queue. -/
def exClient (i : Nat) : ClientInfo := ⟨i, 10, 0, 100, []⟩

def exItem (i : Nat) : BItem := ⟨("TileMined"), [("0xb")], i⟩

def exSt8 : MgrState :=
  ⟨[exItem 1, exItem 2, exItem 3], none, false,
    [(1, exClient 1), (2, exClient 2), (3, exClient 3)]⟩

/-- C8 witness: with three connected subscribers and an empty personal
backlog, subscriber 1's tick drains the shared queue and the two others
receive the drained batch in their backlogs. -/
theorem C8_tick_backlog_priority_witness :
    exSt8.connectedClients.lookup 1 = some (exClient 1)
    ∧ (exClient 1).nextBatchTime ≤ 0
    ∧ ((exClient 1).queueBacklog ≠ [] →
        (sendBatchToClient exSt8 1 0 true true).2
            = some ((exClient 1).queueBacklog.take
                (min (exClient 1).queueBacklog.length (exClient 1).batchSize))
        ∧ (sendBatchToClient exSt8 1 0 true true).1.transactionQueue = exSt8.transactionQueue
        ∧ ∀ p ∈ exSt8.connectedClients, p.1 ≠ 1 →
            p ∈ (sendBatchToClient exSt8 1 0 true true).1.connectedClients)
    ∧ ((exClient 1).queueBacklog = [] → exSt8.transactionQueue ≠ [] →
        (sendBatchToClient exSt8 1 0 true true).2
            = some (exSt8.transactionQueue.take
                (min exSt8.transactionQueue.length (exClient 1).batchSize))
        ∧ (sendBatchToClient exSt8 1 0 true true).1.transactionQueue
            = exSt8.transactionQueue.drop
                (min exSt8.transactionQueue.length (exClient 1).batchSize)
        ∧ (∀ p ∈ exSt8.connectedClients, p.1 ≠ 1 →
            (p.1, { p.2 with queueBacklog := capBacklog (p.2.queueBacklog ++
                exSt8.transactionQueue.take
                  (min exSt8.transactionQueue.length (exClient 1).batchSize)) })
              ∈ (sendBatchToClient exSt8 1 0 true true).1.connectedClients)
        ∧ ∀ p ∈ exSt8.connectedClients, p.1 = 1 →
            (p.1, { p.2 with nextBatchTime := (0 + nextDelay
                (exSt8.transactionQueue.drop
                  (min exSt8.transactionQueue.length (exClient 1).batchSize)).length
                p.2.batchInterval) })
              ∈ (sendBatchToClient exSt8 1 0 true true).1.connectedClients) := by
  refine ⟨by decide, by decide, ?_, ?_⟩
  · exact (C8_tick_backlog_priority exSt8 1 0 (exClient 1) (by decide) (by decide)).1
  · exact (C8_tick_backlog_priority exSt8 1 0 (exClient 1) (by decide) (by decide)).2

/-! ### Claim C9

The rate-limited manager of `src/unnamed/part_001` does *not* touch the
continuation token in its `catch` block; only the legacy manager embedded in
the second half of `part_001` resets it there (`this.continuationToken =
null`).  We model the legacy manager as well to settle the claim. -/

structure LegacyState where
  transactionQueue : List BItem
  continuationToken : Option String
  isFetching : Bool
deriving DecidableEq

/-- Legacy formatting (`EVENT_MAP[tx.keys[0]] || "UnknownEvent"`). -/
def formatTxLegacy (now : Nat) (tx : RawTx) : BItem :=
  ⟨(EVENT_MAP (tx.keys.getD 0 "")).getD ("UnknownEvent"), tx.data, now⟩

/-- `fetchTransactions()` of the legacy manager: no queue cap, the token is
set unconditionally from the page, and — unlike the current manager — the
`catch` block resets the token to null. -/
def fetchTransactionsLegacy (st : LegacyState) (res : FetchResult) (now : Nat) : LegacyState :=
  if st.isFetching then st
  else
    match res with
    | .err => { st with continuationToken := none }
    | .malformed => st
    | .page evs tok =>
        { st with
            continuationToken := tok
            transactionQueue := st.transactionQueue ++ evs.map (formatTxLegacy now) }

/-- A live manager state holding a continuation token, with one subscriber. -/
def exSt9 : MgrState := ⟨[], some ("tok1"), false, [(1, exClient 1)]⟩

/-- C9 counterexample.  The claim states that whenever a live pending-window
fetch errors, the poller's continuation token is reset to empty.  In the
rate-limited manager (the claim's primary cited code path) the `catch` block
only logs: on a fetch error — and likewise on a malformed body — the token
keeps its old value. -/
theorem C9_token_reset_counterexample :
    (fetchTransactions exSt9 FetchResult.err 0).1.continuationToken = some ("tok1")
    ∧ ¬ (fetchTransactions exSt9 FetchResult.err 0).1.continuationToken = none
    ∧ (fetchTransactions exSt9 FetchResult.malformed 0).1.continuationToken = some ("tok1") := by
  refine ⟨by decide, by decide, by decide⟩

/-- C9 (amended): only the legacy manager resets the continuation token to
empty on a fetch error; the current rate-limited manager leaves its entire
state unchanged on an errored fetch, and its token is cleared only when the
last subscriber disconnects. -/
theorem C9_token_reset_amended (st : LegacyState) (now : Nat) (hf : st.isFetching = false) :
    (fetchTransactionsLegacy st FetchResult.err now).continuationToken = none
    ∧ (∀ (st2 : MgrState) (now2 : Nat), (fetchTransactions st2 FetchResult.err now2).1 = st2)
    ∧ ∀ (st3 : MgrState) (ws : Nat),
        (clientsRemove ws st3.connectedClients).isEmpty = true →
        (removeClient st3 ws).continuationToken = none := by
  refine ⟨?_, ?_, ?_⟩
  · simp [fetchTransactionsLegacy, hf]
  · intro st2 now2
    by_cases hf2 : st2.isFetching = true
    · simp only [fetchTransactions, if_pos hf2]
    · by_cases hq : maxQueueSize ≤ st2.transactionQueue.length
      · simp only [fetchTransactions, if_neg hf2, if_pos hq]
      · simp only [fetchTransactions, if_neg hf2, if_neg hq]
  · intro st3 ws hemp
    simp [removeClient, hemp]

/-- C9 amended-claim witness: a concrete errored fetch on a legacy state with
a token. -/
theorem C9_token_reset_amended_witness :
    (⟨[], some ("tokL"), false⟩ : LegacyState).isFetching = false
    ∧ ((fetchTransactionsLegacy (⟨[], some ("tokL"), false⟩ : LegacyState)
          FetchResult.err 3).continuationToken = none
      ∧ (∀ (st2 : MgrState) (now2 : Nat),
            (fetchTransactions st2 FetchResult.err now2).1 = st2)
      ∧ ∀ (st3 : MgrState) (ws : Nat),
          (clientsRemove ws st3.connectedClients).isEmpty = true →
          (removeClient st3 ws).continuationToken = none) :=
  ⟨rfl, C9_token_reset_amended (⟨[], some ("tokL"), false⟩ : LegacyState) 3 rfl⟩

/-! ### Claim C10 -/

/-- C10: when a pending-window fetch returns `n` events but only
`r = maxQueueSize - queue.length < n` slots remain, exactly the first `r`
fetched events are formatted and enqueued, the remaining `n - r` are
discarded without ever being enqueued (the queue is full afterwards), while
the continuation token is still advanced past the whole page — so the
discarded events are lost to all subscribers. -/
theorem C10_overflow_drop (st : MgrState) (evs : List RawTx) (tok : Option String) (now : Nat)
    (hf : st.isFetching = false)
    (hq : st.transactionQueue.length < maxQueueSize)
    (hover : maxQueueSize - st.transactionQueue.length < evs.length) :
    (fetchTransactions st (FetchResult.page evs tok) now).1.transactionQueue
        = st.transactionQueue ++
          ((evs.take (maxQueueSize - st.transactionQueue.length)).map (formatTx now))
    ∧ (fetchTransactions st (FetchResult.page evs tok) now).1.transactionQueue.length
        = maxQueueSize
    ∧ (fetchTransactions st (FetchResult.page evs tok) now).1.continuationToken = tok
    ∧ (fetchTransactions st (FetchResult.page evs tok) now).2 = true := by
  have hf2 : ¬ st.isFetching = true := by simp [hf]
  have hq2 : ¬ maxQueueSize ≤ st.transactionQueue.length := by omega
  have hpos : 0 < evs.length := by omega
  have hmin : min evs.length (maxQueueSize - st.transactionQueue.length)
      = maxQueueSize - st.transactionQueue.length := by omega
  refine ⟨?_, ?_, ?_, ?_⟩ <;>
    simp only [fetchTransactions, if_neg hf2, if_neg hq2, if_pos hpos, hmin]
  · simp only [List.length_append, List.length_map, List.length_take]
    omega

/-- A queue one slot below capacity. -/
def exSt10 : MgrState := ⟨List.replicate 4999 (exItem 0), none, false, []⟩

/-- C10 witness: a two-event page against a queue with a single free slot —
one event is enqueued, the queue is full, and the token advances past the
whole page. -/
theorem C10_overflow_drop_witness :
    exSt10.isFetching = false
    ∧ exSt10.transactionQueue.length < maxQueueSize
    ∧ maxQueueSize - exSt10.transactionQueue.length < ([sampleTx, sampleTx] : List RawTx).length
    ∧ ((fetchTransactions exSt10 (FetchResult.page [sampleTx, sampleTx] (some ("t2"))) 9).1.transactionQueue
          = exSt10.transactionQueue ++
            (([sampleTx, sampleTx].take (maxQueueSize - exSt10.transactionQueue.length)).map
              (formatTx 9))
      ∧ (fetchTransactions exSt10
            (FetchResult.page [sampleTx, sampleTx] (some ("t2"))) 9).1.transactionQueue.length
          = maxQueueSize
      ∧ (fetchTransactions exSt10
            (FetchResult.page [sampleTx, sampleTx] (some ("t2"))) 9).1.continuationToken
          = some ("t2")
      ∧ (fetchTransactions exSt10 (FetchResult.page [sampleTx, sampleTx] (some ("t2"))) 9).2
          = true) := by
  have h1 : exSt10.isFetching = false := rfl
  have hlen : exSt10.transactionQueue.length = 4999 := by
    show (List.replicate 4999 (exItem 0)).length = 4999
    rw [List.length_replicate]
  have h2 : exSt10.transactionQueue.length < maxQueueSize := by
    rw [hlen]
    norm_num [maxQueueSize]
  have h3 : maxQueueSize - exSt10.transactionQueue.length
      < ([sampleTx, sampleTx] : List RawTx).length := by
    rw [hlen]
    norm_num [maxQueueSize, List.length_cons, List.length_nil]
  exact ⟨h1, h2, h3,
    C10_overflow_drop exSt10 [sampleTx, sampleTx] (some ("t2")) 9 h1 h2 h3⟩

end StarknetStream
